import Mathlib

/-!
Verification of the archibald instruction-table compiler (src/lib.rs).

The development shallowly embeds the core of the proc macro:

* pattern strings are lists of characters; the parser mirrors
  the Rust function parse_pattern (trimming, the width assertion,
  the MSB-first bit scan, variable position collection);
* variable bindings, combinatorial expansion (generate_opcode_variants
  and generate_combinations), and handler-call resolution
  (generate_handler_call) are embedded directly;
* the compile loop of instruction_table is embedded as processEntry
  and compileEntries, producing the ordered decision table of
  (mask, value, handler call) entries together with the seen_patterns
  list used for overlap resolution;
* the generated dispatcher is embedded as dispatch, a linear scan that
  returns the first matching entry applied to the raw opcode, or the
  panic message of the generated catch-all arm.

Machine integers (u64 in the source) are modelled as Nat with explicit
reduction modulo 2 ^ 64 at the one operation that can overflow
(the shift in generate_combinations), and with the narrowing casts of
make_literal modelled as reduction modulo 2 ^ bit_width.
Panics and compile-time assertions are modelled with Except String.
-/

namespace Archibald

/-- A single bit mapping from the where clause, for example 0b00 mapped to R0.
The bits field stores the binary digit string of the literal, after the
token-level normalisation that strips a 0b or 0B base marker, exactly as the
Rust BitMapping struct stores it. -/
structure BitMapping where
  bits : String
  variant : String
deriving DecidableEq

/-- A variable binding of the where clause: a variable name together with its
ordered literal-to-tag mappings.  The optional enum type annotation of the
source is dropped: the source stores it in the unused field _enum_type. -/
structure VariableBinding where
  name : String
  mappings : List BitMapping
deriving DecidableEq

/-- A generic argument of a handler specification: either a reference to a
pattern variable (EnumType and variable name), or fixed tokens. -/
inductive GenericArg where
  | var (enumType : String) (varName : String)
  | fixed (tokens : String)
deriving DecidableEq

/-- A handler specification: name plus generic arguments. -/
structure HandlerSpec where
  name : String
  generics : List GenericArg
deriving DecidableEq

/-- One instruction-table entry: pattern string, handler, where-clause
bindings (the empty list models an absent where clause, as the source
itself flattens the option with unwrap_or of the empty slice). -/
structure InstructionEntry where
  pattern : List Char
  handler : HandlerSpec
  whereBindings : List VariableBinding
deriving DecidableEq

/-- The result of parse_pattern. The vars field models the variables map of
the source, from each variable name to its (start_bit, num_bits) pair; the
source uses a HashMap that is only ever read through get and contains_key,
so an association list with unique keys is an equivalent model. -/
structure ParsedPattern where
  mask : Nat
  value : Nat
  vars : List (String × (Nat × Nat))
  wildcard_bits : Nat
  bit_width : Nat
deriving DecidableEq

/-- Accumulator state of the character scan inside parse_pattern. -/
structure ScanState where
  mask : Nat
  value : Nat
  wildcard : Nat
  varPos : List (Char × List Nat)
deriving DecidableEq

/-- The error message of the panic on an invalid pattern character. -/
def invalidCharMsg (ch : Char) : String :=
  "Invalid pattern character: " ++ String.singleton ch ++
    ". Use 0/1 for fixed bits, a-z for variables, _ or . for wildcards"

/-- The error message of the length assertion in parse_pattern. -/
def lengthErrMsg (bitWidth : Nat) (pattern : List Char) : String :=
  "Pattern must be exactly 8, 16, 32, or 64 bits. Got " ++ toString bitWidth ++
    " bits: " ++ String.mk pattern

/-- Append a bit position to the position list of a variable character,
mirroring var_positions.entry(c).or_default().push(bit_pos). -/
def pushVarPos : List (Char × List Nat) → Char → Nat → List (Char × List Nat)
  | [], c, p => [(c, [p])]
  | (c0, ps) :: rest, c, p =>
      if c0 = c then (c0, ps ++ [p]) :: rest else (c0, ps) :: pushVarPos rest c p

/-- One step of the match on a pattern character in parse_pattern. -/
def scanStep (bitPos : Nat) (ch : Char) (st : ScanState) : Except String ScanState :=
  if ch = '0' then
    .ok { st with mask := st.mask ||| (1 <<< bitPos) }
  else if ch = '1' then
    .ok { st with mask := st.mask ||| (1 <<< bitPos), value := st.value ||| (1 <<< bitPos) }
  else if ch = '_' ∨ ch = '.' then
    .ok { st with wildcard := st.wildcard ||| (1 <<< bitPos) }
  else if ch.isLower then
    .ok { st with varPos := pushVarPos st.varPos ch bitPos }
  else
    .error (invalidCharMsg ch)

/-- The enumerated character scan of parse_pattern: index i addresses bit
position width - 1 - i (MSB first). -/
def scanPattern (width : Nat) : Nat → List Char → ScanState → Except String ScanState
  | _, [], st => .ok st
  | i, ch :: rest, st =>
      match scanStep (width - 1 - i) ch st with
      | .error e => .error e
      | .ok st2 => scanPattern width (i + 1) rest st2

/-- Minimum of a list of positions; the source unwraps the minimum of a
position list that is non-empty by construction, so the value at the empty
list is never reached. -/
def minList : List Nat → Nat
  | [] => 0
  | p :: ps => ps.foldl Nat.min p

/-- Leading and trailing whitespace removal, mirroring str::trim as used on
the pattern string (restricted to the ASCII whitespace characters of
Char.isWhitespace). -/
def trimChars (l : List Char) : List Char :=
  (((l.reverse.dropWhile Char.isWhitespace).reverse).dropWhile Char.isWhitespace)

/-- Embedding of parse_pattern: trim, assert the width, scan the characters,
convert each variable position list to (minimum position, occurrence count). -/
def parsePattern (raw : List Char) : Except String ParsedPattern :=
  let pattern := trimChars raw
  let bitWidth := pattern.length
  if bitWidth = 8 ∨ bitWidth = 16 ∨ bitWidth = 32 ∨ bitWidth = 64 then
    match scanPattern bitWidth 0 pattern ⟨0, 0, 0, []⟩ with
    | .error e => .error e
    | .ok st =>
        .ok { mask := st.mask
              value := st.value
              vars := st.varPos.map (fun cp => (String.singleton cp.1, (minList cp.2, cp.2.length)))
              wildcard_bits := st.wildcard
              bit_width := bitWidth }
  else
    .error (lengthErrMsg bitWidth pattern)

/-- Embedding of u64::from_str_radix with radix 2: an empty digit string or a
non-binary digit is an error, as is overflow past the u64 range. A leading
plus sign is accepted, as in the Rust integer parser. -/
def binDigitsToNat : List Char → Nat → Option Nat
  | [], acc => some acc
  | c :: cs, acc =>
      if c = '0' then
        if acc * 2 < 2 ^ 64 then binDigitsToNat cs (acc * 2) else none
      else if c = '1' then
        if acc * 2 + 1 < 2 ^ 64 then binDigitsToNat cs (acc * 2 + 1) else none
      else none

/-- See binDigitsToNat. -/
def fromStrRadix2 (s : String) : Option Nat :=
  let ds := if s.toList.head? = some '+' then s.toList.tail else s.toList
  if ds = [] then none else binDigitsToNat ds 0

/-- The var_info tuples built at the start of generate_opcode_variants:
variable name, start bit, bit count, and the mappings of its binding. -/
structure VarInfo where
  name : String
  pos : Nat
  numBits : Nat
  mappings : List BitMapping
deriving DecidableEq

/-- The var_info list: each binding whose name occurs in the pattern
variables, in binding declaration order. -/
def buildVarInfo (p : ParsedPattern) (bindings : List VariableBinding) : List VarInfo :=
  bindings.filterMap (fun b =>
    (p.vars.lookup b.name).map (fun pn => ⟨b.name, pn.1, pn.2, b.mappings⟩))

/-- Embedding of generate_combinations: depth-first expansion over the
var_info list, accumulating the opcode and the symbolic bindings.  The u64
shift of the source is modelled with an explicit reduction modulo 2 ^ 64.
The loop of the source over the mappings of the current variable, each
iteration recursing into the remaining variables and appending its results,
is the foldr over the mappings; a literal that fails binary parsing is the
expect panic "Invalid binary string". -/
def genCombs : List VarInfo → Nat → List (String × String) →
    Except String (List (Nat × List (String × String)))
  | [], cur, binds => .ok [(cur, binds)]
  | v :: rest, cur, binds =>
      v.mappings.foldr
        (fun m acc =>
          match fromStrRadix2 m.bits with
          | none => .error "Invalid binary string"
          | some bitsValue =>
              match genCombs rest (cur ||| ((bitsValue <<< v.pos) % 2 ^ 64))
                  (binds ++ [(v.name, m.variant)]) with
              | .error e => .error e
              | .ok r1 =>
                  match acc with
                  | .error e => .error e
                  | .ok r2 => .ok (r1 ++ r2))
        (.ok [])

/-- Embedding of generate_opcode_variants. -/
def generate_opcode_variants (p : ParsedPattern) (bindings : List VariableBinding) :
    Except String (List (Nat × List (String × String))) :=
  let vi := buildVarInfo p bindings
  if vi.isEmpty then .ok [(p.value, [])] else genCombs vi p.value []

/-- A generic argument after resolution against the symbolic bindings of one
expansion branch: either EnumType::Variant from a variable reference, or the
fixed tokens.  The brace wrapping that the source adds for const generics is
host-syntax scaffolding and carries no decision content. -/
inductive ResolvedArg where
  | enumVariant (enumType : String) (variant : String)
  | fixedTokens (tokens : String)
deriving DecidableEq

/-- A fully resolved handler invocation. -/
structure HandlerCall where
  name : String
  args : List ResolvedArg
deriving DecidableEq

/-- The panic message of generate_handler_call for a variable reference with
no matching binding. -/
def unboundVarMsg (varName : String) : String :=
  "Variable " ++ varName ++ " not found in where clause bindings"

/-- Resolve the generic arguments of a handler against the bindings of one
expansion branch, mirroring the map inside generate_handler_call. -/
def resolveArgs (bindings : List (String × String)) : List GenericArg → Except String (List ResolvedArg)
  | [] => .ok []
  | .var enumType varName :: rest =>
      match bindings.find? (fun b => b.1 == varName) with
      | none => .error (unboundVarMsg varName)
      | some b =>
          match resolveArgs bindings rest with
          | .error e => .error e
          | .ok args => .ok (.enumVariant enumType b.2 :: args)
  | .fixed tokens :: rest =>
      match resolveArgs bindings rest with
      | .error e => .error e
      | .ok args => .ok (.fixedTokens tokens :: args)

/-- Embedding of generate_handler_call. -/
def generate_handler_call (handler : HandlerSpec) (bindings : List (String × String)) :
    Except String HandlerCall :=
  match resolveArgs bindings handler.generics with
  | .error e => .error e
  | .ok args => .ok ⟨handler.name, args⟩

/-- Embedding of make_literal: the narrowing integer casts of the source are
reduction modulo 2 ^ bit_width; other widths panic and are unreachable
because parse_pattern only produces the four listed widths. -/
def make_literal (value : Nat) (bitWidth : Nat) : Nat :=
  if bitWidth = 8 then value % 2 ^ 8
  else if bitWidth = 16 then value % 2 ^ 16
  else if bitWidth = 32 then value % 2 ^ 32
  else if bitWidth = 64 then value % 2 ^ 64
  else 0

/-- Embedding of make_full_mask; other widths panic and are unreachable. -/
def make_full_mask (bitWidth : Nat) : Nat :=
  if bitWidth = 8 then 0xFF
  else if bitWidth = 16 then 0xFFFF
  else if bitWidth = 32 then 0xFFFFFFFF
  else if bitWidth = 64 then 0xFFFFFFFFFFFFFFFF
  else 0

/-- One decision entry of the generated match: an exact arm is recorded with
the full mask of the opcode type, a guard arm with its guard mask; the value
is the emitted literal. -/
structure DecisionEntry where
  mask : Nat
  value : Nat
  call : HandlerCall
deriving DecidableEq

/-- Compilation state of the instruction_table loop: the emitted match arms
and the seen_patterns list of accepted (mask, value) pairs. -/
structure CompileState where
  arms : List DecisionEntry
  seen : List (Nat × Nat)
deriving DecidableEq

/-- The expanded mask of an entry with expandable variables: the pattern mask
plus every bit of every bound variable range, mirroring the loop that ORs
1 << (bit_pos + i) for i below num_bits. -/
def expandedMask (p : ParsedPattern) (bindings : List VariableBinding) : Nat :=
  bindings.foldl (fun m b =>
    match p.vars.lookup b.name with
    | some pn => (List.range pn.2).foldl (fun m2 i => m2 ||| (1 <<< (pn.1 + i))) m
    | none => m) p.mask

/-- Whether any binding matches a pattern variable, mirroring the
has_expandable_vars test. -/
def hasExpandableVars (p : ParsedPattern) (bindings : List VariableBinding) : Bool :=
  bindings.any (fun b => (p.vars.lookup b.name).isSome)

/-- The per-variant loop of the expandable branch of instruction_table.
With wildcard bits a guard arm is emitted unless an already accepted pair is
the full mask together with this exact opcode; without wildcard bits an exact
arm is emitted unless the (full mask, opcode) key was already accepted.
In the guarded branch the handler call is generated before the dominance
check, exactly as in the source. -/
def processVariants (w emask wc : Nat) (handler : HandlerSpec) :
    List (Nat × List (String × String)) → CompileState → Except String CompileState
  | [], st => .ok st
  | (opcode, binds) :: rest, st =>
      if wc ≠ 0 then
        match generate_handler_call handler binds with
        | .error e => .error e
        | .ok call =>
            if st.seen.any (fun mv => mv.1 == make_full_mask w && mv.2 == opcode) then
              processVariants w emask wc handler rest st
            else
              processVariants w emask wc handler rest
                ⟨st.arms ++ [⟨make_literal emask w, make_literal opcode w, call⟩],
                 st.seen ++ [(emask, opcode)]⟩
      else
        if st.seen.contains (make_full_mask w, opcode) then
          processVariants w emask wc handler rest st
        else
          match generate_handler_call handler binds with
          | .error e => .error e
          | .ok call =>
              processVariants w emask wc handler rest
                ⟨st.arms ++ [⟨make_full_mask w, make_literal opcode w, call⟩],
                 st.seen ++ [(make_full_mask w, opcode)]⟩

/-- The body of the entry loop of instruction_table: parse the pattern, then
either expand variables, or emit a single masked arm for a pattern with
wildcards or unbound variables, or emit a deduplicated exact arm. -/
def processEntry (st : CompileState) (e : InstructionEntry) : Except String CompileState :=
  match parsePattern e.pattern with
  | .error e => .error e
  | .ok p =>
      if hasExpandableVars p e.whereBindings then
        match generate_opcode_variants p e.whereBindings with
        | .error msg => .error msg
        | .ok variants =>
            processVariants p.bit_width (expandedMask p e.whereBindings) p.wildcard_bits
              e.handler variants st
      else if p.wildcard_bits ≠ 0 ∨ ¬ p.vars.isEmpty then
        match generate_handler_call e.handler [] with
        | .error msg => .error msg
        | .ok call =>
            .ok ⟨st.arms ++ [⟨make_literal p.mask p.bit_width, make_literal p.value p.bit_width, call⟩],
                 st.seen ++ [(p.mask, p.value)]⟩
      else
        if st.seen.contains (make_full_mask p.bit_width, p.value) then .ok st
        else
          match generate_handler_call e.handler [] with
          | .error msg => .error msg
          | .ok call =>
              .ok ⟨st.arms ++ [⟨make_full_mask p.bit_width, make_literal p.value p.bit_width, call⟩],
                   st.seen ++ [(make_full_mask p.bit_width, p.value)]⟩

/-- The entry loop of instruction_table. -/
def compileEntries : List InstructionEntry → CompileState → Except String CompileState
  | [], st => .ok st
  | e :: rest, st =>
      match processEntry st e with
      | .error msg => .error msg
      | .ok st2 => compileEntries rest st2

/-- Embedding of the instruction_table macro: the ordered decision table
derived from the entries, or the first compile-time failure. -/
def instruction_table (entries : List InstructionEntry) : Except String (List DecisionEntry) :=
  match compileEntries entries ⟨[], []⟩ with
  | .error msg => .error msg
  | .ok st => .ok st.arms

/-- The hexadecimal digit characters used by the {:02X} format. -/
def hexDigitChar (n : Nat) : Char :=
  if n < 10 then Char.ofNat (48 + n) else Char.ofNat (55 + n)

/-- Big-endian upper-case hex digits of n; empty for zero. -/
def toHexDigits (n : Nat) : List Char :=
  if h : n = 0 then []
  else toHexDigits (n / 16) ++ [hexDigitChar (n % 16)]
decreasing_by exact Nat.div_lt_self (Nat.pos_of_ne_zero h) (by omega)

/-- The {:02X} rendering: upper-case hex, zero-padded to at least width 2. -/
def hexPad2 (n : Nat) : String :=
  String.mk (List.replicate (2 - (toHexDigits n).length) '0' ++ toHexDigits n)

/-- The message of the generated catch-all panic arm,
panic with "Unhandled opcode: 0x{:02X}" applied to the opcode. -/
def panicMessage (opcode : Nat) : String :=
  "Unhandled opcode: 0x" ++ hexPad2 opcode

/-- Whether a decision entry matches an opcode: the guard opcode AND mask
equals value; an exact arm is the same test with the full mask. -/
def entryMatches (d : DecisionEntry) (o : Nat) : Bool :=
  (o &&& d.mask) == d.value

/-- The runtime semantics of the generated dispatcher: scan the decision
entries in order; the first match invokes its handler call with the raw
opcode; the catch-all arm panics with the unmatched opcode. -/
def dispatch : List DecisionEntry → Nat → Except String (HandlerCall × Nat)
  | [], o => .error (panicMessage o)
  | d :: rest, o => if entryMatches d o then .ok (d.call, o) else dispatch rest o

/-- The handler call of a branch, with a junk default where resolution
fails; used only to state results whose hypotheses force resolution to
succeed. -/
def callOrDefault (handler : HandlerSpec) (binds : List (String × String)) : HandlerCall :=
  match generate_handler_call handler binds with
  | .ok c => c
  | .error _ => ⟨"", []⟩

/-- Modelled from the spec, section 4.4: the overlap resolution of exact
candidates, one rejection per earlier identical full-mask/value pair, first
declared wins. Compared below against the exact branch of processVariants. -/
def dedupExact (w : Nat) (handler : HandlerSpec) :
    List (Nat × List (String × String)) → List (Nat × Nat) → List DecisionEntry
  | [], _ => []
  | (opcode, binds) :: rest, seen =>
      if seen.contains (make_full_mask w, opcode) then dedupExact w handler rest seen
      else ⟨make_full_mask w, make_literal opcode w, callOrDefault handler binds⟩ ::
        dedupExact w handler rest (seen ++ [(make_full_mask w, opcode)])

/-- Modelled from the spec, section 4.3: one level of the Cartesian product
of bound variables, every mapping choice paired with every combination of
the remaining variables, recording the chosen tag and the chosen literal
shifted to the variable start bit. -/
def specBranch (name : String) (pos : Nat) (rest : List (List ((String × String) × Nat))) :
    List BitMapping → List (List ((String × String) × Nat))
  | [] => []
  | m :: ms =>
      rest.map (fun combo => ((name, m.variant), ((fromStrRadix2 m.bits).getD 0) <<< pos) :: combo)
        ++ specBranch name pos rest ms

/-- Modelled from the spec, section 4.3: the Cartesian product of the bound
variables in declaration order. -/
def specCartesian : List VarInfo → List (List ((String × String) × Nat))
  | [] => [[]]
  | v :: rest => specBranch v.name v.pos (specCartesian rest) v.mappings

/-- Modelled from the spec, section 4.3: the opcode of one combination,
pattern value ORed with the sum of the chosen shifted literals. -/
def comboOpcode (base : Nat) (combo : List ((String × String) × Nat)) : Nat :=
  base ||| (combo.map (fun x => x.2)).sum

/-- The symbolic-binding list of one combination. -/
def comboTags (combo : List ((String × String) × Nat)) : List (String × String) :=
  combo.map (fun x => x.1)

/-- The value bits contributed by a run of 0/1 characters starting at string
index i: one bit at position width - 1 - index for every 1 character. -/
def litBits (width : Nat) : Nat → List Char → Nat
  | _, [] => 0
  | i, c :: cs => (if c = '1' then 1 <<< (width - 1 - i) else 0) ||| litBits width (i + 1) cs

/-- The mask bits contributed by a run of 0/1 characters starting at string
index i: one bit at position width - 1 - index for every character. -/
def allBits (width : Nat) : Nat → List Char → Nat
  | _, [] => 0
  | i, _ :: cs => (1 <<< (width - 1 - i)) ||| allBits width (i + 1) cs

/-- The legal pattern alphabet of parse_pattern. -/
def legalPatternChar (c : Char) : Bool :=
  c = '0' || c = '1' || c = '_' || c = '.' || c.isLower

/-- Decode an upper-case hex digit character, inverse of hexDigitChar on
digit values below sixteen. -/
def fromHexDigit (c : Char) : Nat :=
  if c.toNat < 58 then c.toNat - 48 else c.toNat - 55

/-- Decode a big-endian hex digit list, inverse of toHexDigits. -/
def fromHexDigits (l : List Char) : Nat :=
  l.foldl (fun a c => a * 16 + fromHexDigit c) 0

/-- Example entry with a variable letter at non-contiguous positions 7 and 5
interleaved with wildcards: pattern a_a___11 with a bound to 0b11. -/
def entNonContig : InstructionEntry :=
  ⟨"a_a___11".toList, ⟨"H", []⟩, [⟨"a", [⟨"11", "X"⟩]⟩]⟩

/-- Example entry with two variable letters at interleaved positions:
pattern abab1111, a bound to 0b01, b bound to 0b10. -/
def entInterleaved : InstructionEntry :=
  ⟨"abab1111".toList, ⟨"H", []⟩, [⟨"a", [⟨"01", "X"⟩]⟩, ⟨"b", [⟨"10", "Y"⟩]⟩]⟩

/-- Example exact entry for opcode 0x00. -/
def entExact00 : InstructionEntry := ⟨"00000000".toList, ⟨"HandlerA", []⟩, []⟩

/-- Example wildcard entry 0000____ with no where clause. -/
def entGuard0 : InstructionEntry := ⟨"0000____".toList, ⟨"HandlerB", []⟩, []⟩

/-- Example entry with a bound variable a and an unbound variable b. -/
def entHalfBound : InstructionEntry :=
  ⟨"ab000000".toList, ⟨"H", []⟩, [⟨"a", [⟨"0", "T0"⟩, ⟨"1", "T1"⟩]⟩]⟩

/-- Example fixed entry 00011000 (the Clc example of the crate docs). -/
def entClc : InstructionEntry := ⟨"00011000".toList, ⟨"Clc", []⟩, []⟩

/-- Example entry whose pattern has only unbound variables: 11rr____ with an
empty where clause. -/
def entUnbound : InstructionEntry := ⟨"11rr____".toList, ⟨"ImplAdd", []⟩, []⟩

/-- Example guarded entry with a bound variable: 10cc____ with c bound. -/
def entGuardBound : InstructionEntry :=
  ⟨"10cc____".toList, ⟨"Mov", [.var "Reg" "c"]⟩, [⟨"c", [⟨"00", "R0"⟩, ⟨"01", "R1"⟩]⟩]⟩

/-- Example pair of exact entries declaring the same opcode 0x3E. -/
def entDup1 : InstructionEntry := ⟨"00111110".toList, ⟨"First", []⟩, []⟩

/-- See entDup1. -/
def entDup2 : InstructionEntry := ⟨"00111110".toList, ⟨"Second", []⟩, []⟩

/-- Example entry with one variable bound to two mappings whose bit literals
denote the same value, 0 and 00. -/
def entRepeatLit : InstructionEntry :=
  ⟨"0000000a".toList, ⟨"H", []⟩, [⟨"a", [⟨"0", "TagA"⟩, ⟨"00", "TagB"⟩]⟩]⟩

/-! ### Bitwise toolkit -/

theorem one_shiftLeft_eq_pow (b : Nat) : 1 <<< b = 2 ^ b := by
  rw [Nat.shiftLeft_eq, one_mul]

theorem land_eq_zero_iff {x y : Nat} :
    x &&& y = 0 ↔ ∀ i, x.testBit i = false ∨ y.testBit i = false := by
  constructor
  · intro h i
    have h2 := congrArg (fun z => z.testBit i) h
    simp only [Nat.testBit_and, Nat.zero_testBit, Bool.and_eq_false_iff] at h2
    exact h2
  · intro h
    apply Nat.eq_of_testBit_eq
    intro i
    simp only [Nat.testBit_and, Nat.zero_testBit, Bool.and_eq_false_iff]
    exact h i

theorem add_eq_or_of_land_eq_zero (x y : Nat) (h : x &&& y = 0) : x + y = x ||| y := by
  induction x using Nat.strong_induction_on generalizing y with
  | _ x ih =>
    rcases Nat.eq_zero_or_pos x with hx | hx
    · subst hx; simp
    · have hbx := Nat.bit_decomp x
      have hby := Nat.bit_decomp y
      have hm : Nat.div2 x < x := Nat.binaryRec_decreasing (Nat.pos_iff_ne_zero.mp hx)
      have h2 : Nat.bit (Nat.bodd x && Nat.bodd y) (Nat.div2 x &&& Nat.div2 y) = 0 := by
        rw [← Nat.land_bit, hbx, hby]; exact h
      rw [Nat.bit_eq_zero_iff] at h2
      have ihmn := ih (Nat.div2 x) hm (Nat.div2 y) h2.1
      have hbool : (Nat.bodd x).toNat + (Nat.bodd y).toNat = (Nat.bodd x || Nat.bodd y).toNat := by
        have hb := h2.2
        cases hx2 : Nat.bodd x <;> cases hy2 : Nat.bodd y <;> simp_all
      calc x + y = Nat.bit (Nat.bodd x) (Nat.div2 x) + Nat.bit (Nat.bodd y) (Nat.div2 y) := by
            rw [hbx, hby]
        _ = 2 * (Nat.div2 x + Nat.div2 y) + ((Nat.bodd x).toNat + (Nat.bodd y).toNat) := by
            rw [Nat.bit_val, Nat.bit_val]; omega
        _ = 2 * (Nat.div2 x ||| Nat.div2 y) + (Nat.bodd x || Nat.bodd y).toNat := by
            rw [ihmn, hbool]
        _ = Nat.bit (Nat.bodd x || Nat.bodd y) (Nat.div2 x ||| Nat.div2 y) := by
            rw [Nat.bit_val]
        _ = Nat.bit (Nat.bodd x) (Nat.div2 x) ||| Nat.bit (Nat.bodd y) (Nat.div2 y) :=
            (Nat.lor_bit _ _ _ _).symm
        _ = x ||| y := by rw [hbx, hby]

theorem shiftLeft_land_eq_zero {l n p X : Nat} (hl : l < 2 ^ n)
    (hd : ((2 ^ n - 1) <<< p) &&& X = 0) : (l <<< p) &&& X = 0 := by
  rw [land_eq_zero_iff] at hd ⊢
  intro i
  rcases hd i with h1 | h1
  · left
    rw [Nat.testBit_shiftLeft] at h1 ⊢
    cases hpi : decide (p ≤ i) with
    | false => simp [hpi]
    | true =>
      simp only [hpi, Bool.true_and] at h1 ⊢
      rw [Nat.testBit_two_pow_sub_one] at h1
      by_cases hin : i - p < n
      · simp [hin] at h1
      · exact Nat.testBit_lt_two_pow
          (lt_of_lt_of_le hl (Nat.pow_le_pow_right (by omega) (by omega)))
  · exact Or.inr h1

theorem make_full_mask_eq {w : Nat} (h : w = 8 ∨ w = 16 ∨ w = 32 ∨ w = 64) :
    make_full_mask w = 2 ^ w - 1 := by
  rcases h with rfl | rfl | rfl | rfl <;> decide

theorem make_literal_eq {w : Nat} (h : w = 8 ∨ w = 16 ∨ w = 32 ∨ w = 64) (v : Nat) :
    make_literal v w = v % 2 ^ w := by
  rcases h with rfl | rfl | rfl | rfl <;> rfl

theorem callOrDefault_eq {handler : HandlerSpec} {binds : List (String × String)} {c : HandlerCall}
    (h : generate_handler_call handler binds = .ok c) : callOrDefault handler binds = c := by
  unfold callOrDefault
  rw [h]

/-! ### Scan lemmas for parse_pattern -/

theorem scanStep_cases {bitPos : Nat} {c : Char} {st st2 : ScanState}
    (h : scanStep bitPos c st = .ok st2) :
    (c = '0' ∧ st2 = { st with mask := st.mask ||| 1 <<< bitPos }) ∨
    (c = '1' ∧ st2 = { st with mask := st.mask ||| 1 <<< bitPos,
                               value := st.value ||| 1 <<< bitPos }) ∨
    ((c = '_' ∨ c = '.') ∧ st2 = { st with wildcard := st.wildcard ||| 1 <<< bitPos }) ∨
    (c.isLower = true ∧ st2 = { st with varPos := pushVarPos st.varPos c bitPos }) := by
  unfold scanStep at h
  split_ifs at h with h0 h1 hw hl
  · exact Or.inl ⟨h0, by cases h; rfl⟩
  · exact Or.inr (Or.inl ⟨h1, by cases h; rfl⟩)
  · exact Or.inr (Or.inr (Or.inl ⟨hw, by cases h; rfl⟩))
  · exact Or.inr (Or.inr (Or.inr ⟨hl, by cases h; rfl⟩))

theorem scanStep_ok_of_legal (bitPos : Nat) {c : Char} (st : ScanState)
    (hc : legalPatternChar c = true) : ∃ st2, scanStep bitPos c st = .ok st2 := by
  unfold scanStep
  split_ifs with h0 h1 hw hl
  · exact ⟨_, rfl⟩
  · exact ⟨_, rfl⟩
  · exact ⟨_, rfl⟩
  · exact ⟨_, rfl⟩
  · exfalso
    simp only [legalPatternChar, Bool.or_eq_true, decide_eq_true_eq] at hc
    rcases hc with ((((hc | hc) | hc) | hc) | hc)
    · exact h0 hc
    · exact h1 hc
    · exact hw (Or.inl hc)
    · exact hw (Or.inr hc)
    · exact absurd hc (by simp [hl])

theorem scanPattern_mask_origin {width : Nat} :
    ∀ (chars : List Char) (i : Nat) (st st' : ScanState),
      scanPattern width i chars st = .ok st' →
      ∀ b, st'.mask.testBit b = true →
        st.mask.testBit b = true ∨
          ∃ j, ∃ hj : j < chars.length, b = width - 1 - (i + j) ∧
            ((chars.get ⟨j, hj⟩) = '0' ∨ (chars.get ⟨j, hj⟩) = '1') := by
  intro chars
  induction chars with
  | nil =>
    intro i st st' h b hb
    simp only [scanPattern] at h
    cases h
    exact Or.inl hb
  | cons c cs ih =>
    intro i st st' h b hb
    simp only [scanPattern] at h
    cases hstep : scanStep (width - 1 - i) c st with
    | error e => rw [hstep] at h; cases h
    | ok st2 =>
      rw [hstep] at h
      have hrec := ih (i + 1) st2 st' h b hb
      have lift : (st2.mask.testBit b = true → st.mask.testBit b = true ∨
            (b = width - 1 - i ∧ (c = '0' ∨ c = '1'))) →
          st.mask.testBit b = true ∨
            ∃ j, ∃ hj : j < (c :: cs).length, b = width - 1 - (i + j) ∧
              (((c :: cs).get ⟨j, hj⟩) = '0' ∨ ((c :: cs).get ⟨j, hj⟩) = '1') := by
        intro hstep2
        rcases hrec with hm | ⟨j, hj, hb2, hc2⟩
        · rcases hstep2 hm with hm2 | ⟨hb2, hc2⟩
          · exact Or.inl hm2
          · exact Or.inr ⟨0, by simp, by omega, hc2⟩
        · refine Or.inr ⟨j + 1, by simp [Nat.succ_lt_succ hj], by omega, hc2⟩
      rcases scanStep_cases hstep with ⟨hc, rfl⟩ | ⟨hc, rfl⟩ | ⟨hc, rfl⟩ | ⟨hc, rfl⟩
      · refine lift (fun hm => ?_)
        simp only [Nat.testBit_or, Bool.or_eq_true, one_shiftLeft_eq_pow] at hm
        rcases hm with hm | hm
        · exact Or.inl hm
        · rw [Nat.testBit_two_pow] at hm
          exact Or.inr ⟨Eq.symm (by simpa using hm), Or.inl hc⟩
      · refine lift (fun hm => ?_)
        simp only [Nat.testBit_or, Bool.or_eq_true, one_shiftLeft_eq_pow] at hm
        rcases hm with hm | hm
        · exact Or.inl hm
        · rw [Nat.testBit_two_pow] at hm
          exact Or.inr ⟨Eq.symm (by simpa using hm), Or.inr hc⟩
      · exact lift (fun hm => Or.inl hm)
      · exact lift (fun hm => Or.inl hm)

theorem scanPattern_wildcard_origin {width : Nat} :
    ∀ (chars : List Char) (i : Nat) (st st' : ScanState),
      scanPattern width i chars st = .ok st' →
      ∀ b, st'.wildcard.testBit b = true →
        st.wildcard.testBit b = true ∨
          ∃ j, ∃ hj : j < chars.length, b = width - 1 - (i + j) ∧
            ((chars.get ⟨j, hj⟩) = '_' ∨ (chars.get ⟨j, hj⟩) = '.') := by
  intro chars
  induction chars with
  | nil =>
    intro i st st' h b hb
    simp only [scanPattern] at h
    cases h
    exact Or.inl hb
  | cons c cs ih =>
    intro i st st' h b hb
    simp only [scanPattern] at h
    cases hstep : scanStep (width - 1 - i) c st with
    | error e => rw [hstep] at h; cases h
    | ok st2 =>
      rw [hstep] at h
      have hrec := ih (i + 1) st2 st' h b hb
      have lift : (st2.wildcard.testBit b = true → st.wildcard.testBit b = true ∨
            (b = width - 1 - i ∧ (c = '_' ∨ c = '.'))) →
          st.wildcard.testBit b = true ∨
            ∃ j, ∃ hj : j < (c :: cs).length, b = width - 1 - (i + j) ∧
              (((c :: cs).get ⟨j, hj⟩) = '_' ∨ ((c :: cs).get ⟨j, hj⟩) = '.') := by
        intro hstep2
        rcases hrec with hm | ⟨j, hj, hb2, hc2⟩
        · rcases hstep2 hm with hm2 | ⟨hb2, hc2⟩
          · exact Or.inl hm2
          · exact Or.inr ⟨0, by simp, by omega, hc2⟩
        · refine Or.inr ⟨j + 1, by simp [Nat.succ_lt_succ hj], by omega, hc2⟩
      rcases scanStep_cases hstep with ⟨hc, rfl⟩ | ⟨hc, rfl⟩ | ⟨hc, rfl⟩ | ⟨hc, rfl⟩
      · exact lift (fun hm => Or.inl hm)
      · exact lift (fun hm => Or.inl hm)
      · refine lift (fun hm => ?_)
        simp only [Nat.testBit_or, Bool.or_eq_true, one_shiftLeft_eq_pow] at hm
        rcases hm with hm | hm
        · exact Or.inl hm
        · rw [Nat.testBit_two_pow] at hm
          exact Or.inr ⟨Eq.symm (by simpa using hm), hc⟩
      · exact lift (fun hm => Or.inl hm)

theorem scanPattern_value_le_mask {width : Nat} :
    ∀ (chars : List Char) (i : Nat) (st st' : ScanState),
      scanPattern width i chars st = .ok st' →
      (∀ b, st.value.testBit b = true → st.mask.testBit b = true) →
      ∀ b, st'.value.testBit b = true → st'.mask.testBit b = true := by
  intro chars
  induction chars with
  | nil =>
    intro i st st' h hsub b
    simp only [scanPattern] at h
    cases h
    exact hsub b
  | cons c cs ih =>
    intro i st st' h hsub b
    simp only [scanPattern] at h
    cases hstep : scanStep (width - 1 - i) c st with
    | error e => rw [hstep] at h; cases h
    | ok st2 =>
      rw [hstep] at h
      refine ih (i + 1) st2 st' h ?_ b
      rcases scanStep_cases hstep with ⟨hc, rfl⟩ | ⟨hc, rfl⟩ | ⟨hc, rfl⟩ | ⟨hc, rfl⟩
      · intro b2 hb2
        simp only [Nat.testBit_or, Bool.or_eq_true]
        exact Or.inl (hsub b2 hb2)
      · intro b2 hb2
        simp only [Nat.testBit_or, Bool.or_eq_true] at hb2 ⊢
        rcases hb2 with hb2 | hb2
        · exact Or.inl (hsub b2 hb2)
        · exact Or.inr hb2
      · exact hsub
      · exact hsub

theorem litBits_cons_zero {width i : Nat} {cs : List Char} :
    litBits width i ('0' :: cs) = litBits width (i + 1) cs := by
  show (if ('0' : Char) = '1' then 1 <<< (width - 1 - i) else 0) ||| litBits width (i + 1) cs = _
  rw [if_neg (by decide), Nat.zero_or]

theorem litBits_cons_one {width i : Nat} {cs : List Char} :
    litBits width i ('1' :: cs) = (1 <<< (width - 1 - i)) ||| litBits width (i + 1) cs := by
  show (if ('1' : Char) = '1' then 1 <<< (width - 1 - i) else 0) ||| litBits width (i + 1) cs = _
  rw [if_pos rfl]

theorem allBits_cons {width i : Nat} {c : Char} {cs : List Char} :
    allBits width i (c :: cs) = (1 <<< (width - 1 - i)) ||| allBits width (i + 1) cs := rfl

theorem scanPattern_01 {width : Nat} :
    ∀ (chars : List Char) (i : Nat) (st : ScanState),
      (∀ c ∈ chars, c = '0' ∨ c = '1') →
      scanPattern width i chars st =
        .ok ⟨st.mask ||| allBits width i chars, st.value ||| litBits width i chars,
             st.wildcard, st.varPos⟩ := by
  intro chars
  induction chars with
  | nil =>
    intro i st h
    simp [scanPattern, allBits, litBits]
  | cons c cs ih =>
    intro i st h
    rcases h c (List.mem_cons_self c cs) with hc | hc <;> subst hc
    · have hstep : scanStep (width - 1 - i) '0' st =
          .ok { st with mask := st.mask ||| 1 <<< (width - 1 - i) } := by
        unfold scanStep
        rw [if_pos rfl]
      simp only [scanPattern, hstep]
      rw [ih (i + 1) _ (fun c hc => h c (List.mem_cons_of_mem _ hc))]
      simp only [litBits_cons_zero, allBits_cons, Nat.or_assoc]
    · have hstep : scanStep (width - 1 - i) '1' st =
          .ok { st with mask := st.mask ||| 1 <<< (width - 1 - i),
                        value := st.value ||| 1 <<< (width - 1 - i) } := by
        unfold scanStep
        rw [if_neg (by decide), if_pos rfl]
      simp only [scanPattern, hstep]
      rw [ih (i + 1) _ (fun c hc => h c (List.mem_cons_of_mem _ hc))]
      simp only [litBits_cons_one, allBits_cons, Nat.or_assoc]

theorem scanPattern_ok_of_legal {width : Nat} :
    ∀ (chars : List Char) (i : Nat) (st : ScanState),
      (∀ c ∈ chars, legalPatternChar c = true) →
      ∃ st', scanPattern width i chars st = .ok st' := by
  intro chars
  induction chars with
  | nil => exact fun i st _ => ⟨st, rfl⟩
  | cons c cs ih =>
    intro i st h
    obtain ⟨st2, hstep⟩ := scanStep_ok_of_legal (width - 1 - i) st
      (h c (List.mem_cons_self c cs))
    obtain ⟨st', hrest⟩ := ih (i + 1) st2 (fun c hc => h c (List.mem_cons_of_mem _ hc))
    exact ⟨st', by simp only [scanPattern, hstep]; exact hrest⟩

theorem litBits_lt_pow_sub {width : Nat} :
    ∀ (cs : List Char) (i : Nat), i + cs.length ≤ width →
      litBits width i cs < 2 ^ (width - i) := by
  intro cs
  induction cs with
  | nil => intro i _; exact Nat.pos_pow_of_pos _ (by omega)
  | cons c cs ih =>
    intro i hi
    simp only [List.length_cons] at hi
    show (if c = '1' then 1 <<< (width - 1 - i) else 0) ||| litBits width (i + 1) cs < _
    apply Nat.or_lt_two_pow
    · split_ifs
      · rw [one_shiftLeft_eq_pow]
        exact Nat.pow_lt_pow_right (by omega) (by omega)
      · exact Nat.pos_pow_of_pos _ (by omega)
    · exact lt_of_lt_of_le (ih (i + 1) (by omega)) (Nat.pow_le_pow_right (by omega) (by omega))

theorem litBits_lt {width : Nat} (cs : List Char) (hl : cs.length ≤ width) :
    litBits width 0 cs < 2 ^ width := by
  have h2 : litBits width 0 cs < 2 ^ (width - 0) := litBits_lt_pow_sub cs 0 (by omega)
  simpa using h2

theorem litBits_testBit (width : Nat) :
    ∀ (cs : List Char) (i : Nat), i + cs.length ≤ width →
      ∀ (j : Nat) (hj : j < cs.length),
        (litBits width i cs).testBit (width - 1 - (i + j)) = (cs.get ⟨j, hj⟩ == '1') := by
  intro cs
  induction cs with
  | nil => intro i _ j hj; cases hj
  | cons c cs ih =>
    intro i hi j hj
    simp only [List.length_cons] at hi
    cases j with
    | zero =>
      show ((if c = '1' then 1 <<< (width - 1 - i) else 0) |||
        litBits width (i + 1) cs).testBit (width - 1 - (i + 0)) = _
      have htail : (litBits width (i + 1) cs).testBit (width - 1 - (i + 0)) = false := by
        apply Nat.testBit_lt_two_pow
        exact lt_of_lt_of_le (litBits_lt_pow_sub cs (i + 1) (by omega))
          (Nat.pow_le_pow_right (by omega) (by omega))
      rw [Nat.testBit_or, htail, Bool.or_false]
      split_ifs with hc
      · subst hc
        rw [one_shiftLeft_eq_pow, Nat.testBit_two_pow]
        simp
      · show Nat.testBit 0 (width - 1 - (i + 0)) = (c == '1')
        have hcf : (c == '1') = false := by simp [hc]
        rw [hcf, Nat.zero_testBit]
    | succ j =>
      have hj2 : j < cs.length := by simpa using Nat.lt_of_succ_lt_succ hj
      show ((if c = '1' then 1 <<< (width - 1 - i) else 0) |||
        litBits width (i + 1) cs).testBit (width - 1 - (i + (j + 1))) = _
      have hhead : (if c = '1' then 1 <<< (width - 1 - i) else 0).testBit
          (width - 1 - (i + (j + 1))) = false := by
        split_ifs
        · rw [one_shiftLeft_eq_pow]
          exact Nat.testBit_two_pow_of_ne (by omega)
        · exact Nat.zero_testBit _
      rw [Nat.testBit_or, hhead, Bool.false_or]
      have := ih (i + 1) (by omega) j hj2
      have harg : width - 1 - (i + 1 + j) = width - 1 - (i + (j + 1)) := by omega
      rw [harg] at this
      exact this

/-! ### Trim lemmas -/

theorem trimChars_as_rdropWhile (l : List Char) :
    trimChars l = (l.rdropWhile Char.isWhitespace).dropWhile Char.isWhitespace := rfl

theorem trimChars_idem (l : List Char) : trimChars (trimChars l) = trimChars l := by
  rw [trimChars_as_rdropWhile, trimChars_as_rdropWhile]
  have hr : (((l.rdropWhile Char.isWhitespace).dropWhile Char.isWhitespace).rdropWhile
      Char.isWhitespace) = (l.rdropWhile Char.isWhitespace).dropWhile Char.isWhitespace := by
    rw [List.rdropWhile_eq_self_iff]
    intro hne
    obtain ⟨pre, hpre⟩ := List.dropWhile_suffix (l := l.rdropWhile Char.isWhitespace)
      Char.isWhitespace
    have hR : l.rdropWhile Char.isWhitespace ≠ [] := by
      intro h0
      rw [h0] at hne
      simp at hne
    have hlast : ((l.rdropWhile Char.isWhitespace).dropWhile Char.isWhitespace).getLast hne ∈
        ((l.rdropWhile Char.isWhitespace).dropWhile Char.isWhitespace).getLast? :=
      List.getLast_mem_getLast? hne
    have hlast2 : (l.rdropWhile Char.isWhitespace).getLast? =
        ((l.rdropWhile Char.isWhitespace).dropWhile Char.isWhitespace).getLast? := by
      conv_lhs => rw [← hpre]
      rw [List.getLast?_append]
      rw [List.getLast?_eq_getLast _ hne]
      rfl
    have hlastR : ((l.rdropWhile Char.isWhitespace).dropWhile Char.isWhitespace).getLast hne
        = (l.rdropWhile Char.isWhitespace).getLast hR := by
      have hsome : some ((l.rdropWhile Char.isWhitespace).getLast hR) =
          some (((l.rdropWhile Char.isWhitespace).dropWhile Char.isWhitespace).getLast hne) := by
        rw [← List.getLast?_eq_getLast _ hR, hlast2, List.getLast?_eq_getLast _ hne]
      exact (Option.some_inj.mp hsome).symm
    rw [hlastR]
    exact List.rdropWhile_last_not _ _ hR
  rw [hr, List.dropWhile_idempotent]

theorem trimChars_eq_self {l : List Char} (h : ∀ c ∈ l, Char.isWhitespace c = false) :
    trimChars l = l := by
  rw [trimChars_as_rdropWhile]
  have hr : l.rdropWhile Char.isWhitespace = l := by
    rw [List.rdropWhile_eq_self_iff]
    intro hne
    simp [h _ (List.getLast_mem hne)]
  rw [hr]
  rw [List.dropWhile_eq_self_iff]
  intro hl
  have := h (l.get ⟨0, hl⟩) (List.get_mem l 0 hl)
  simpa using this

/-! ### parse_pattern corollaries -/

theorem parsePattern_ok_elim {raw : List Char} {p : ParsedPattern}
    (h : parsePattern raw = .ok p) :
    ∃ st, scanPattern (trimChars raw).length 0 (trimChars raw) ⟨0, 0, 0, []⟩ = .ok st ∧
      p = ⟨st.mask, st.value,
           st.varPos.map (fun cp => (String.singleton cp.1, (minList cp.2, cp.2.length))),
           st.wildcard, (trimChars raw).length⟩ ∧
      ((trimChars raw).length = 8 ∨ (trimChars raw).length = 16 ∨
        (trimChars raw).length = 32 ∨ (trimChars raw).length = 64) := by
  simp only [parsePattern] at h
  split_ifs at h with hw
  · cases hscan : scanPattern (trimChars raw).length 0 (trimChars raw) ⟨0, 0, 0, []⟩ with
    | error e => rw [hscan] at h; cases h
    | ok st =>
        rw [hscan] at h
        cases h
        exact ⟨st, rfl, rfl, hw⟩

theorem parsePattern_width {raw : List Char} {p : ParsedPattern}
    (h : parsePattern raw = .ok p) :
    (p.bit_width = 8 ∨ p.bit_width = 16 ∨ p.bit_width = 32 ∨ p.bit_width = 64) ∧
      p.bit_width = (trimChars raw).length := by
  obtain ⟨st, _, hp, hw⟩ := parsePattern_ok_elim h
  subst hp
  exact ⟨hw, rfl⟩

theorem parsePattern_trim (raw : List Char) :
    parsePattern raw = parsePattern (trimChars raw) := by
  unfold parsePattern
  rw [trimChars_idem]

theorem parsePattern_mask_lowercase {raw : List Char} {p : ParsedPattern}
    (h : parsePattern raw = .ok p) (i : Nat) (hi : i < (trimChars raw).length)
    (hlow : ((trimChars raw).get ⟨i, hi⟩).isLower = true) :
    p.mask.testBit (p.bit_width - 1 - i) = false := by
  obtain ⟨st, hscan, hp, _⟩ := parsePattern_ok_elim h
  have hm : p.mask = st.mask := by rw [hp]
  have hbw : p.bit_width = (trimChars raw).length := by rw [hp]
  rw [hm, hbw]
  by_contra hset
  rw [Bool.not_eq_false] at hset
  have horig := scanPattern_mask_origin (trimChars raw) 0 _ _ hscan _ hset
  rcases horig with hzero | ⟨j, hj, hb, hc⟩
  · simp at hzero
  · have hij : j = i := by omega
    subst hij
    rcases hc with hc | hc <;> rw [hc] at hlow <;> exact absurd hlow (by decide)

theorem parsePattern_mask_wildcard_disjoint {raw : List Char} {p : ParsedPattern}
    (h : parsePattern raw = .ok p) :
    ∀ b, p.wildcard_bits.testBit b = true → p.mask.testBit b = false := by
  obtain ⟨st, hscan, hp, _⟩ := parsePattern_ok_elim h
  have hm : p.mask = st.mask := by rw [hp]
  have hw : p.wildcard_bits = st.wildcard := by rw [hp]
  intro b hwb
  rw [hm]
  by_contra hset
  rw [Bool.not_eq_false] at hset
  have hmor := scanPattern_mask_origin (trimChars raw) 0 _ _ hscan b hset
  rw [hw] at hwb
  have hwor := scanPattern_wildcard_origin (trimChars raw) 0 _ _ hscan b hwb
  rcases hmor with hz | ⟨j1, hj1, hb1, hc1⟩
  · simp at hz
  rcases hwor with hz | ⟨j2, hj2, hb2, hc2⟩
  · simp at hz
  have hij : j1 = j2 := by omega
  subst hij
  rcases hc1 with hc1 | hc1 <;> rcases hc2 with hc2 | hc2 <;>
    exact absurd (hc1.symm.trans hc2) (by decide)

theorem parsePattern_value_le_mask {raw : List Char} {p : ParsedPattern}
    (h : parsePattern raw = .ok p) :
    ∀ b, p.value.testBit b = true → p.mask.testBit b = true := by
  obtain ⟨st, hscan, hp, _⟩ := parsePattern_ok_elim h
  subst hp
  exact scanPattern_value_le_mask (trimChars raw) 0 _ _ hscan (by simp)

theorem parsePattern_len_error {raw : List Char}
    (h : ¬((trimChars raw).length = 8 ∨ (trimChars raw).length = 16 ∨
      (trimChars raw).length = 32 ∨ (trimChars raw).length = 64)) :
    parsePattern raw = .error (lengthErrMsg (trimChars raw).length (trimChars raw)) := by
  unfold parsePattern
  rw [if_neg h]

theorem scanPattern_error_at {width : Nat} :
    ∀ (good : List Char) (c : Char) (rest : List Char) (i : Nat) (st : ScanState),
      (∀ g ∈ good, legalPatternChar g = true) → legalPatternChar c = false →
      scanPattern width i (good ++ c :: rest) st = .error (invalidCharMsg c) := by
  intro good
  induction good with
  | nil =>
    intro c rest i st _ hbad
    have hstep : scanStep (width - 1 - i) c st = .error (invalidCharMsg c) := by
      simp only [legalPatternChar, Bool.or_eq_false_iff, decide_eq_false_iff_not] at hbad
      unfold scanStep
      rw [if_neg hbad.1.1.1.1, if_neg hbad.1.1.1.2,
          if_neg (by rintro (h | h); exact hbad.1.1.2 h; exact hbad.1.2 h), if_neg (by simp [hbad.2])]
    simp only [List.nil_append, scanPattern, hstep]
  | cons g good ih =>
    intro c rest i st hgood hbad
    obtain ⟨st2, hstep⟩ := scanStep_ok_of_legal (width - 1 - i) st
      (hgood g (List.mem_cons_self g good))
    simp only [List.cons_append, scanPattern, hstep]
    exact ih c rest (i + 1) st2 (fun x hx => hgood x (List.mem_cons_of_mem _ hx)) hbad

theorem parsePattern_char_error {raw : List Char} {good rest : List Char} {c : Char}
    (hsplit : trimChars raw = good ++ c :: rest)
    (hlen : (trimChars raw).length = 8 ∨ (trimChars raw).length = 16 ∨
      (trimChars raw).length = 32 ∨ (trimChars raw).length = 64)
    (hgood : ∀ g ∈ good, legalPatternChar g = true) (hbad : legalPatternChar c = false) :
    parsePattern raw = .error (invalidCharMsg c) := by
  unfold parsePattern
  rw [if_pos hlen]
  rw [hsplit, scanPattern_error_at good c rest 0 _ hgood hbad]

theorem parsePattern_ok_of_legal {raw : List Char}
    (hlen : (trimChars raw).length = 8 ∨ (trimChars raw).length = 16 ∨
      (trimChars raw).length = 32 ∨ (trimChars raw).length = 64)
    (hleg : ∀ c ∈ trimChars raw, legalPatternChar c = true) :
    ∃ p, parsePattern raw = .ok p ∧ p.bit_width = (trimChars raw).length := by
  have hgl : ∃ st', scanPattern (trimChars raw).length 0 (trimChars raw) ⟨0, 0, 0, []⟩ = .ok st' :=
    scanPattern_ok_of_legal (trimChars raw) 0 ⟨0, 0, 0, []⟩ hleg
  obtain ⟨st, hscan⟩ := hgl
  refine ⟨⟨st.mask, st.value,
    st.varPos.map (fun cp => (String.singleton cp.1, (minList cp.2, cp.2.length))),
    st.wildcard, (trimChars raw).length⟩, ?_, rfl⟩
  unfold parsePattern
  rw [if_pos hlen, hscan]

theorem parsePattern_all01 {raw : List Char}
    (h01 : ∀ c ∈ raw, c = '0' ∨ c = '1')
    (hlen : raw.length = 8 ∨ raw.length = 16 ∨ raw.length = 32 ∨ raw.length = 64) :
    parsePattern raw =
      .ok ⟨allBits raw.length 0 raw, litBits raw.length 0 raw, [], 0, raw.length⟩ := by
  have htrim : trimChars raw = raw := trimChars_eq_self (fun c hc => by
    rcases h01 c hc with rfl | rfl <;> decide)
  unfold parsePattern
  rw [htrim, if_pos hlen, scanPattern_01 raw 0 ⟨0, 0, 0, []⟩ h01]
  simp

/-! ### Compile loop lemmas -/

theorem processVariants_guarded {w emask wc : Nat} {handler : HandlerSpec}
    (hwc : wc ≠ 0) (hne : emask ≠ make_full_mask w) :
    ∀ (vs : List (Nat × List (String × String))) (st st' : CompileState),
      processVariants w emask wc handler vs st = .ok st' →
      st'.arms = st.arms ++
        (vs.filter (fun v =>
          !(st.seen.any (fun mv => mv.1 == make_full_mask w && mv.2 == v.1)))).map
          (fun v => ⟨make_literal emask w, make_literal v.1 w, callOrDefault handler v.2⟩) := by
  intro vs
  induction vs with
  | nil =>
    intro st st' h
    cases h
    simp
  | cons v rest ih =>
    intro st st' h
    obtain ⟨opcode, binds⟩ := v
    simp only [processVariants] at h
    rw [if_pos hwc] at h
    cases hcall : generate_handler_call handler binds with
    | error e => rw [hcall] at h; cases h
    | ok call =>
      simp only [hcall] at h
      by_cases hdom : st.seen.any (fun mv => mv.1 == make_full_mask w && mv.2 == opcode) = true
      · rw [if_pos hdom] at h
        rw [ih st st' h, List.filter_cons]
        simp [hdom]
      · rw [if_neg hdom] at h
        have h2 : st'.arms =
            (st.arms ++ [⟨make_literal emask w, make_literal opcode w, call⟩]) ++
              (rest.filter (fun v =>
                !((st.seen ++ [(emask, opcode)]).any fun mv =>
                  mv.1 == make_full_mask w && mv.2 == v.1))).map
                (fun v => ⟨make_literal emask w, make_literal v.1 w,
                  callOrDefault handler v.2⟩) :=
          ih _ st' h
        have hfull : (emask == make_full_mask w) = false := by simp [hne]
        have hfc : rest.filter (fun v =>
              !((st.seen ++ [(emask, opcode)]).any fun mv =>
                mv.1 == make_full_mask w && mv.2 == v.1)) =
            rest.filter (fun v =>
              !(st.seen.any fun mv => mv.1 == make_full_mask w && mv.2 == v.1)) := by
          apply List.filter_congr
          intro x _
          simp only [List.any_append, List.any_cons, List.any_nil, Bool.or_false, hfull,
            Bool.false_and]
        rw [h2, hfc, List.filter_cons]
        have hpred : (!(st.seen.any fun mv =>
            mv.1 == make_full_mask w && mv.2 == opcode)) = true := by
          simp [hdom]
        rw [if_pos hpred]
        rw [List.map_cons, callOrDefault_eq hcall]
        simp [List.append_assoc]

theorem processVariants_exact {w emask : Nat} {handler : HandlerSpec} :
    ∀ (vs : List (Nat × List (String × String))) (st st' : CompileState),
      processVariants w emask 0 handler vs st = .ok st' →
      st'.arms = st.arms ++ dedupExact w handler vs st.seen := by
  intro vs
  induction vs with
  | nil =>
    intro st st' h
    cases h
    simp [dedupExact]
  | cons v rest ih =>
    intro st st' h
    obtain ⟨opcode, binds⟩ := v
    simp only [processVariants] at h
    rw [if_neg (by omega)] at h
    by_cases hcont : st.seen.contains (make_full_mask w, opcode) = true
    · rw [if_pos hcont] at h
      rw [ih st st' h]
      congr 1
      rw [dedupExact, if_pos hcont]
    · rw [if_neg hcont] at h
      cases hcall : generate_handler_call handler binds with
      | error e => rw [hcall] at h; cases h
      | ok call =>
        rw [hcall] at h
        have h2 := ih _ st' h
        rw [h2, dedupExact, if_neg hcont, callOrDefault_eq hcall]
        simp [List.append_assoc]

theorem hasExpandableVars_of_no_vars {p : ParsedPattern} (h : p.vars = [])
    (bs : List VariableBinding) : hasExpandableVars p bs = false := by
  unfold hasExpandableVars
  rw [h]
  simp [List.lookup]

theorem processEntry_expand {st : CompileState} {e : InstructionEntry} {p : ParsedPattern}
    {variants : List (Nat × List (String × String))}
    (hp : parsePattern e.pattern = .ok p)
    (hexp : hasExpandableVars p e.whereBindings = true)
    (hvar : generate_opcode_variants p e.whereBindings = .ok variants) :
    processEntry st e = processVariants p.bit_width (expandedMask p e.whereBindings)
      p.wildcard_bits e.handler variants st := by
  unfold processEntry
  rw [hp]
  show (if hasExpandableVars p e.whereBindings then _ else _) = _
  rw [if_pos hexp, hvar]

theorem processEntry_masked {st : CompileState} {e : InstructionEntry} {p : ParsedPattern}
    {call : HandlerCall}
    (hp : parsePattern e.pattern = .ok p)
    (hexp : hasExpandableVars p e.whereBindings = false)
    (hcond : p.wildcard_bits ≠ 0 ∨ ¬ p.vars.isEmpty)
    (hcall : generate_handler_call e.handler [] = .ok call) :
    processEntry st e = .ok ⟨st.arms ++
        [⟨make_literal p.mask p.bit_width, make_literal p.value p.bit_width, call⟩],
      st.seen ++ [(p.mask, p.value)]⟩ := by
  unfold processEntry
  rw [hp]
  show (if hasExpandableVars p e.whereBindings then _ else _) = _
  rw [if_neg (by simp [hexp]), if_pos hcond, hcall]

theorem processEntry_fixed_new {st : CompileState} {e : InstructionEntry} {p : ParsedPattern}
    {call : HandlerCall}
    (hp : parsePattern e.pattern = .ok p)
    (hwc : p.wildcard_bits = 0) (hv : p.vars = [])
    (hseen : (make_full_mask p.bit_width, p.value) ∉ st.seen)
    (hcall : generate_handler_call e.handler [] = .ok call) :
    processEntry st e = .ok ⟨st.arms ++
        [⟨make_full_mask p.bit_width, make_literal p.value p.bit_width, call⟩],
      st.seen ++ [(make_full_mask p.bit_width, p.value)]⟩ := by
  unfold processEntry
  rw [hp]
  show (if hasExpandableVars p e.whereBindings then _ else _) = _
  rw [if_neg (by simp [hasExpandableVars_of_no_vars hv]),
    if_neg (by simp [hwc, hv]), if_neg (by simpa using hseen), hcall]

theorem processEntry_fixed_dup {st : CompileState} {e : InstructionEntry} {p : ParsedPattern}
    (hp : parsePattern e.pattern = .ok p)
    (hwc : p.wildcard_bits = 0) (hv : p.vars = [])
    (hseen : (make_full_mask p.bit_width, p.value) ∈ st.seen) :
    processEntry st e = .ok st := by
  unfold processEntry
  rw [hp]
  show (if hasExpandableVars p e.whereBindings then _ else _) = _
  rw [if_neg (by simp [hasExpandableVars_of_no_vars hv]),
    if_neg (by simp [hwc, hv]), if_pos (by simpa using hseen)]

theorem processEntry_parse_error {st : CompileState} {e : InstructionEntry} {msg : String}
    (hp : parsePattern e.pattern = .error msg) : processEntry st e = .error msg := by
  unfold processEntry
  rw [hp]

theorem compileEntries_error_of_member :
    ∀ (entries : List InstructionEntry) (st : CompileState) (e : InstructionEntry)
      (msg : String), e ∈ entries → parsePattern e.pattern = .error msg →
      ∃ m, compileEntries entries st = .error m := by
  intro entries
  induction entries with
  | nil => intro st e msg h; cases h
  | cons e0 rest ih =>
    intro st e msg hmem hperr
    cases hpe : processEntry st e0 with
    | error m => exact ⟨m, by simp only [compileEntries, hpe]⟩
    | ok st2 =>
      rcases List.mem_cons.mp hmem with rfl | hmem2
      · rw [processEntry_parse_error hperr] at hpe
        cases hpe
      · obtain ⟨m, hm⟩ := ih st2 e msg hmem2 hperr
        exact ⟨m, by simp only [compileEntries, hpe]; exact hm⟩

/-! ### Dispatcher lemmas -/

theorem dispatch_eq_find (entries : List DecisionEntry) (o : Nat) :
    dispatch entries o =
      match entries.find? (fun d => entryMatches d o) with
      | some d => .ok (d.call, o)
      | none => .error (panicMessage o) := by
  induction entries with
  | nil => rfl
  | cons d rest ih =>
    show (if entryMatches d o then _ else _) = _
    rw [List.find?_cons]
    by_cases hm : entryMatches d o = true
    · rw [if_pos hm, hm]
    · rw [if_neg (by simp [hm]), ih]
      have : entryMatches d o = false := by simp [hm]
      rw [this]

theorem dispatch_first_match :
    ∀ (pre : List DecisionEntry) (d : DecisionEntry) (post : List DecisionEntry) (o : Nat),
      (∀ e ∈ pre, entryMatches e o = false) → entryMatches d o = true →
      dispatch (pre ++ d :: post) o = .ok (d.call, o) := by
  intro pre
  induction pre with
  | nil =>
    intro d post o _ hd
    show (if entryMatches d o then _ else _) = _
    rw [if_pos hd]
  | cons e pre ih =>
    intro d post o hpre hd
    show (if entryMatches e o then _ else _) = _
    rw [if_neg (by simp [hpre e (List.mem_cons_self e pre)])]
    exact ih d post o (fun x hx => hpre x (List.mem_cons_of_mem _ hx)) hd

theorem dispatch_skip_entry :
    ∀ (pre : List DecisionEntry) (d : DecisionEntry) (post : List DecisionEntry) (o : Nat),
      entryMatches d o = false →
      dispatch (pre ++ d :: post) o = dispatch (pre ++ post) o := by
  intro pre
  induction pre with
  | nil =>
    intro d post o hd
    show (if entryMatches d o then _ else _) = _
    rw [if_neg (by simp [hd])]
    rfl
  | cons e pre ih =>
    intro d post o hd
    show (if entryMatches e o then _ else _) = (if entryMatches e o then _ else _)
    by_cases he : entryMatches e o = true
    · rw [if_pos he, if_pos he]
    · rw [if_neg (by simp [he]), if_neg (by simp [he])]
      exact ih d post o hd

theorem dispatch_no_match :
    ∀ (entries : List DecisionEntry) (o : Nat),
      (∀ e ∈ entries, entryMatches e o = false) →
      dispatch entries o = .error (panicMessage o) := by
  intro entries
  induction entries with
  | nil => intro o _; rfl
  | cons d rest ih =>
    intro o h
    show (if entryMatches d o then _ else _) = _
    rw [if_neg (by simp [h d (List.mem_cons_self d rest)])]
    exact ih o (fun x hx => h x (List.mem_cons_of_mem _ hx))

theorem dispatch_error_elim :
    ∀ (entries : List DecisionEntry) (o : Nat) (m : String),
      dispatch entries o = .error m →
      m = panicMessage o ∧ ∀ e ∈ entries, entryMatches e o = false := by
  intro entries
  induction entries with
  | nil =>
    intro o m h
    cases h
    exact ⟨rfl, by simp⟩
  | cons d rest ih =>
    intro o m h
    rw [show dispatch (d :: rest) o = if entryMatches d o then .ok (d.call, o)
        else dispatch rest o from rfl] at h
    by_cases hd : entryMatches d o = true
    · rw [if_pos hd] at h; cases h
    · rw [if_neg (by simp [hd])] at h
      obtain ⟨hm, hrest⟩ := ih o m h
      refine ⟨hm, fun x hx => ?_⟩
      rcases List.mem_cons.mp hx with rfl | hx2
      · simp [hd]
      · exact hrest x hx2

/-! ### Hex formatting lemmas -/

theorem fromHexDigit_hexDigitChar {k : Nat} (hk : k < 16) :
    fromHexDigit (hexDigitChar k) = k := by
  interval_cases k <;> decide

theorem fromHexDigits_append_digit (xs : List Char) (c : Char) :
    fromHexDigits (xs ++ [c]) = fromHexDigits xs * 16 + fromHexDigit c := by
  unfold fromHexDigits
  rw [List.foldl_append]
  rfl

theorem fromHexDigits_toHexDigits (n : Nat) : fromHexDigits (toHexDigits n) = n := by
  induction n using Nat.strong_induction_on with
  | _ n ih =>
    by_cases h : n = 0
    · subst h
      rw [toHexDigits]
      simp [fromHexDigits]
    · rw [toHexDigits, dif_neg h, fromHexDigits_append_digit,
        ih (n / 16) (Nat.div_lt_self (Nat.pos_of_ne_zero h) (by omega)),
        fromHexDigit_hexDigitChar (Nat.mod_lt n (by omega))]
      omega

theorem fromHexDigits_replicate_zero :
    ∀ (k : Nat) (l : List Char),
      fromHexDigits (List.replicate k '0' ++ l) = fromHexDigits l := by
  intro k
  induction k with
  | zero => intro l; rfl
  | succ k ih =>
    intro l
    rw [List.replicate_succ, List.cons_append]
    show fromHexDigits (List.replicate k '0' ++ l) = fromHexDigits l
    exact ih l

theorem panicMessage_inj {m n : Nat} (h : panicMessage m = panicMessage n) : m = n := by
  have hdata := congrArg String.data h
  simp only [panicMessage, hexPad2, String.data_append] at hdata
  have hlists := List.append_cancel_left hdata
  have hv := congrArg fromHexDigits hlists
  rw [fromHexDigits_replicate_zero, fromHexDigits_replicate_zero,
    fromHexDigits_toHexDigits, fromHexDigits_toHexDigits] at hv
  exact hv

theorem land_xor_flip {O M b : Nat} (hb : M.testBit b = false) :
    (O ^^^ (1 <<< b)) &&& M = O &&& M := by
  apply Nat.eq_of_testBit_eq
  intro i
  rw [Nat.testBit_and, Nat.testBit_and, Nat.testBit_xor, one_shiftLeft_eq_pow,
    Nat.testBit_two_pow]
  by_cases hib : b = i
  · subst hib
    rw [hb]
    simp
  · simp [hib]

theorem exists_testBit_of_ne_zero {x : Nat} (h : x ≠ 0) : ∃ b, x.testBit b = true := by
  by_contra hno
  push_neg at hno
  exact h (Nat.eq_of_testBit_eq (fun i => by simp [Bool.eq_false_iff.mpr (hno i)]))

/-! ### Claim theorems -/

/-- Claim C4: the dispatcher evaluates decision entries strictly in
declaration (emission) order and performs the invocation of the first entry
whose condition opcode AND mask equals value holds, passing the raw opcode to
the handler call; in particular, with an earlier exact entry whose value a
later entry also covers, dispatching that value invokes the earlier handler.
The context reference of the generated function is passed to every handler
call unchanged and carries no decision content. -/
theorem C4_dispatch_order (entries : List DecisionEntry) (o : Nat) :
    (dispatch entries o =
      match entries.find? (fun d => entryMatches d o) with
      | some d => .ok (d.call, o)
      | none => .error (panicMessage o)) ∧
    (∀ pre d post, entries = pre ++ d :: post →
      (∀ x ∈ pre, entryMatches x o = false) → entryMatches d o = true →
      dispatch entries o = .ok (d.call, o)) ∧
    (∀ pre d mid d2 post, entries = pre ++ d :: (mid ++ d2 :: post) →
      (∀ x ∈ pre, entryMatches x o = false) → entryMatches d o = true →
      entryMatches d2 o = true →
      dispatch entries o = .ok (d.call, o)) := by
  refine ⟨dispatch_eq_find entries o, ?_, ?_⟩
  · intro pre d post hsplit hpre hd
    rw [hsplit]
    exact dispatch_first_match pre d post o hpre hd
  · intro pre d mid d2 post hsplit hpre hd _
    rw [hsplit]
    exact dispatch_first_match pre d (mid ++ d2 :: post) o hpre hd

theorem C4_witness :
    dispatch [⟨0xFF, 0x3E, ⟨"Exact", []⟩⟩, ⟨0xF0, 0x30, ⟨"Wild", []⟩⟩] 0x3E =
      .ok (⟨"Exact", []⟩, 0x3E) :=
  (C4_dispatch_order [⟨0xFF, 0x3E, ⟨"Exact", []⟩⟩, ⟨0xF0, 0x30, ⟨"Wild", []⟩⟩] 0x3E).2.2
    [] ⟨0xFF, 0x3E, ⟨"Exact", []⟩⟩ [] ⟨0xF0, 0x30, ⟨"Wild", []⟩⟩ [] rfl
    (by simp) (by decide) (by decide)

/-- Claim C8: for every opcode that matches no decision entry, dispatch fails
fatally with the panic message containing the raw unmatched opcode rendered
by the 0x{:02X} format (which determines the opcode uniquely), it invokes no
handler, and dispatch never fails in any other way: an error outcome forces
the no-match condition and exactly this message. -/
theorem C8_unmatched_fatal (entries : List DecisionEntry) (o : Nat) :
    ((∀ d ∈ entries, entryMatches d o = false) →
      dispatch entries o = .error (panicMessage o)) ∧
    (∀ m, dispatch entries o = .error m →
      m = panicMessage o ∧ ∀ d ∈ entries, entryMatches d o = false) ∧
    (∀ o2, panicMessage o = panicMessage o2 → o = o2) :=
  ⟨dispatch_no_match entries o,
   fun m h => dispatch_error_elim entries o m h,
   fun _ h => panicMessage_inj h⟩

theorem C8_witness :
    dispatch [⟨0xFF, 0x01, ⟨"A", []⟩⟩] 0x40 = .error (panicMessage 0x40) :=
  (C8_unmatched_fatal [⟨0xFF, 0x01, ⟨"A", []⟩⟩] 0x40).1 (by decide)

/-- Claim C9, counterexample: the raw pattern string with a leading space has
length 9, yet compilation succeeds, because parse_pattern trims before the
length check; the claim that every pattern string of length 9 fails is
therefore false as stated over raw strings. -/
theorem C9_counterexample :
    (" 01010101".toList).length = 9 ∧
    parsePattern (" 01010101".toList) = .ok ⟨0xFF, 0x55, [], 0, 8⟩ :=
  ⟨rfl, rfl⟩

/-- Claim C9, amended: for every pattern string whose trimmed form has a
length other than 8, 16, 32 or 64, and for every pattern string whose trimmed
form contains a character outside the alphabet of 0, 1, underscore, dot and
lowercase letters, table compilation fails: the length failure message names
the offending length and pattern, the character failure message names the
first offending character, and any entry with such a pattern makes the whole
table compilation fail, so no partial table is produced. -/
theorem C9_amended :
    (∀ raw : List Char,
      ¬((trimChars raw).length = 8 ∨ (trimChars raw).length = 16 ∨
        (trimChars raw).length = 32 ∨ (trimChars raw).length = 64) →
      parsePattern raw = .error (lengthErrMsg (trimChars raw).length (trimChars raw))) ∧
    (∀ (raw good rest : List Char) (c : Char),
      trimChars raw = good ++ c :: rest →
      ((trimChars raw).length = 8 ∨ (trimChars raw).length = 16 ∨
        (trimChars raw).length = 32 ∨ (trimChars raw).length = 64) →
      (∀ g ∈ good, legalPatternChar g = true) → legalPatternChar c = false →
      parsePattern raw = .error (invalidCharMsg c)) ∧
    (∀ (entries : List InstructionEntry) (e : InstructionEntry) (msg : String),
      e ∈ entries → parsePattern e.pattern = .error msg →
      ∃ m, instruction_table entries = .error m) := by
  refine ⟨fun raw h => parsePattern_len_error h,
    fun raw good rest c h1 h2 h3 h4 => parsePattern_char_error h1 h2 h3 h4, ?_⟩
  intro entries e msg hmem hperr
  obtain ⟨m, hm⟩ := compileEntries_error_of_member entries ⟨[], []⟩ e msg hmem hperr
  refine ⟨m, ?_⟩
  unfold instruction_table
  rw [hm]

theorem C9_witness :
    parsePattern ("0101010".toList) =
      .error (lengthErrMsg ("0101010".toList).length ("0101010".toList)) ∧
    parsePattern ("01020101".toList) = .error (invalidCharMsg '2') := by
  constructor
  · exact C9_amended.1 ("0101010".toList) (by decide)
  · exact C9_amended.2.1 ("01020101".toList) ("010".toList) ("0101".toList) '2'
      (by decide) (by decide) (by decide) (by decide)

/-- Claim C10: the pattern string is trimmed of leading and trailing
whitespace before the length check and bit scan, so parsing a raw string and
parsing its trimmed form agree, and every raw string whose trimmed form has a
legal length over the legal alphabet parses successfully with all fields
computed from the trimmed string, whatever the raw length. -/
theorem C10_trim (raw : List Char) :
    parsePattern raw = parsePattern (trimChars raw) ∧
    (∀ t : List Char, trimChars raw = t →
      (t.length = 8 ∨ t.length = 16 ∨ t.length = 32 ∨ t.length = 64) →
      (∀ c ∈ t, legalPatternChar c = true) →
      ∃ p, parsePattern raw = .ok p ∧ p.bit_width = t.length) := by
  refine ⟨parsePattern_trim raw, ?_⟩
  intro t ht hlen hleg
  subst ht
  exact parsePattern_ok_of_legal hlen hleg

theorem C10_witness :
    (" 01010101 ".toList).length = 10 ∧
    ∃ p, parsePattern (" 01010101 ".toList) = .ok p ∧ p.bit_width = 8 := by
  refine ⟨rfl, ?_⟩
  have h := (C10_trim (" 01010101 ".toList)).2 ("01010101".toList)
    (by decide) (by decide) (by decide)
  exact h

/-- Claim C2: for a pattern composed only of the characters 0 and 1 the entry
falls into the exact branch: it contributes one exact decision entry whose
value is the literal opcode, with character i of the pattern giving bit
bit_width - 1 - i of that opcode (MSB first); the entry matches exactly that
one opcode among all opcodes of the configured width, the dispatcher invokes
its handler for it when no earlier entry matches, and dispatching any other
opcode of the width behaves as if the entry were absent. -/
theorem C2_literal_pattern (st : CompileState) (e : InstructionEntry) (p : ParsedPattern)
    (call : HandlerCall)
    (h01 : ∀ c ∈ e.pattern, c = '0' ∨ c = '1')
    (hp : parsePattern e.pattern = .ok p)
    (hcall : generate_handler_call e.handler [] = .ok call)
    (hseen : (make_full_mask p.bit_width, p.value) ∉ st.seen) :
    processEntry st e = .ok ⟨st.arms ++
        [⟨make_full_mask p.bit_width, make_literal p.value p.bit_width, call⟩],
      st.seen ++ [(make_full_mask p.bit_width, p.value)]⟩ ∧
    make_literal p.value p.bit_width = p.value ∧
    (∀ i, ∀ hi : i < e.pattern.length,
      p.value.testBit (p.bit_width - 1 - i) = (e.pattern.get ⟨i, hi⟩ == '1')) ∧
    (∀ O, O < 2 ^ p.bit_width →
      (entryMatches ⟨make_full_mask p.bit_width, p.value, call⟩ O = true ↔ O = p.value)) ∧
    (∀ pre post, (∀ x ∈ pre, entryMatches x p.value = false) →
      dispatch (pre ++ ⟨make_full_mask p.bit_width, p.value, call⟩ :: post) p.value =
        .ok (call, p.value)) ∧
    (∀ pre post O, O < 2 ^ p.bit_width → O ≠ p.value →
      dispatch (pre ++ ⟨make_full_mask p.bit_width, p.value, call⟩ :: post) O =
        dispatch (pre ++ post) O) := by
  have htrim : trimChars e.pattern = e.pattern := trimChars_eq_self (fun c hc => by
    rcases h01 c hc with rfl | rfl <;> decide)
  have hwidth := parsePattern_width hp
  have hlen : e.pattern.length = 8 ∨ e.pattern.length = 16 ∨
      e.pattern.length = 32 ∨ e.pattern.length = 64 := by
    rw [← htrim]
    rw [htrim] at hwidth
    rw [htrim]
    rcases hwidth with ⟨hv, hbw⟩
    rw [← hbw]
    exact hv
  have hall := parsePattern_all01 h01 hlen
  rw [hp] at hall
  have hpeq : p = ⟨allBits e.pattern.length 0 e.pattern,
      litBits e.pattern.length 0 e.pattern, [], 0, e.pattern.length⟩ := by
    cases hall
    rfl
  have hwpos : 0 < e.pattern.length := by rcases hlen with h | h | h | h <;> omega
  have hvlt : p.value < 2 ^ p.bit_width := by
    rw [hpeq]
    exact litBits_lt e.pattern (le_refl _)
  have hml : make_literal p.value p.bit_width = p.value := by
    rw [make_literal_eq hwidth.1, Nat.mod_eq_of_lt hvlt]
  have hfm : make_full_mask p.bit_width = 2 ^ p.bit_width - 1 := make_full_mask_eq hwidth.1
  have hmatch : ∀ O, O < 2 ^ p.bit_width →
      (entryMatches ⟨make_full_mask p.bit_width, p.value, call⟩ O = true ↔ O = p.value) := by
    intro O hO
    show ((O &&& make_full_mask p.bit_width) == p.value) = true ↔ O = p.value
    rw [hfm, Nat.and_pow_two_sub_one_eq_mod, Nat.mod_eq_of_lt hO]
    simp
  refine ⟨?_, hml, ?_, hmatch, ?_, ?_⟩
  · have hwc : p.wildcard_bits = 0 := by rw [hpeq]
    have hvars : p.vars = [] := by rw [hpeq]
    exact processEntry_fixed_new hp hwc hvars hseen hcall
  · intro i hi
    have hbw : p.bit_width = e.pattern.length := by rw [hpeq]
    have hval : p.value = litBits e.pattern.length 0 e.pattern := by rw [hpeq]
    rw [hbw, hval]
    have := litBits_testBit e.pattern.length e.pattern 0 (by omega) i hi
    simpa using this
  · intro pre post hpre
    apply dispatch_first_match
    · exact hpre
    · exact ((hmatch p.value hvlt).mpr rfl)
  · intro pre post O hO hne
    apply dispatch_skip_entry
    have := hmatch O hO
    show entryMatches ⟨make_full_mask p.bit_width, p.value, call⟩ O = false
    rcases hb : entryMatches ⟨make_full_mask p.bit_width, p.value, call⟩ O with _ | _
    · rfl
    · exact absurd (this.mp hb) hne

theorem C2_witness :
    processEntry ⟨[], []⟩ entClc =
      .ok ⟨[⟨0xFF, 0x18, ⟨"Clc", []⟩⟩], [(0xFF, 0x18)]⟩ ∧
    dispatch [⟨0xFF, 0x18, ⟨"Clc", []⟩⟩] 0x18 = .ok (⟨"Clc", []⟩, 0x18) ∧
    dispatch [⟨0xFF, 0x18, ⟨"Clc", []⟩⟩] 0x19 = dispatch [] 0x19 := by
  have h := C2_literal_pattern ⟨[], []⟩ entClc ⟨0xFF, 0x18, [], 0, 8⟩ ⟨"Clc", []⟩
    (by decide) rfl rfl (by decide)
  exact ⟨h.1, h.2.2.2.2.1 [] [] (by simp), h.2.2.2.2.2 [] [] 0x19 (by decide) (by decide)⟩

/-- Claim C5, counterexample: the exact entry for 00000000 is followed by the
wildcard entry 0000____ with no where clause; the guarded candidate covers
the concrete value 0 that the earlier exact full-mask entry already owns, yet
it is accepted: the compiled table keeps both arms, because the branch for
wildcard patterns without expandable bindings performs no overlap check at
all. -/
theorem C5_counterexample :
    instruction_table [entExact00, entGuard0] =
      .ok [⟨0xFF, 0x00, ⟨"HandlerA", []⟩⟩, ⟨0xF0, 0x00, ⟨"HandlerB", []⟩⟩] ∧
    parsePattern entGuard0.pattern = .ok ⟨0xF0, 0x00, [], 0x0F, 8⟩ ∧
    make_full_mask 8 = 0xFF :=
  ⟨rfl, rfl, rfl⟩

/-- Claim C5, amended: during overlap resolution, a guarded candidate of an
entry with expandable variable bindings is rejected exactly when some earlier
accepted (mask, value) pair is the full mask paired with the candidate's own
concrete opcode, so such a guard never re-claims an opcode precisely owned by
an earlier exact entry, and with no such earlier exact owner it is accepted;
a guarded entry without expandable bindings, by contrast, is always accepted
unconditionally, with the pattern's own mask and value. -/
theorem C5_amended :
    (∀ (w emask wc : Nat) (handler : HandlerSpec)
        (vs : List (Nat × List (String × String))) (st st' : CompileState),
      wc ≠ 0 → emask ≠ make_full_mask w →
      processVariants w emask wc handler vs st = .ok st' →
      st'.arms = st.arms ++
        (vs.filter (fun v =>
          !(st.seen.any (fun mv => mv.1 == make_full_mask w && mv.2 == v.1)))).map
          (fun v => ⟨make_literal emask w, make_literal v.1 w, callOrDefault handler v.2⟩)) ∧
    (∀ (st : CompileState) (e : InstructionEntry) (p : ParsedPattern) (call : HandlerCall),
      parsePattern e.pattern = .ok p →
      hasExpandableVars p e.whereBindings = false →
      p.wildcard_bits ≠ 0 →
      generate_handler_call e.handler [] = .ok call →
      processEntry st e = .ok ⟨st.arms ++
          [⟨make_literal p.mask p.bit_width, make_literal p.value p.bit_width, call⟩],
        st.seen ++ [(p.mask, p.value)]⟩) := by
  refine ⟨?_, ?_⟩
  · intro w emask wc handler vs st st' hwc hne h
    exact processVariants_guarded hwc hne vs st st' h
  · intro st e p call hp hexp hwc hcall
    exact processEntry_masked hp hexp (Or.inl hwc) hcall

theorem C5_witness :
    processEntry ⟨[], []⟩ entUnbound =
      .ok ⟨[⟨0xC0, 0xC0, ⟨"ImplAdd", []⟩⟩], [(0xC0, 0xC0)]⟩ :=
  C5_amended.2 ⟨[], []⟩ entUnbound ⟨0xC0, 0xC0, [("r", (4, 2))], 0x0F, 8⟩ ⟨"ImplAdd", []⟩
    rfl rfl (by decide) rfl

/-- Claim C7, counterexample: the entry ab000000 binds variable a but leaves
variable b unbound; the claim says such an entry degrades to a single masked
match with the original mask 0x3F, so that opcode 0x40 (which agrees with the
pattern on every fixed bit) matches.  Instead the code expands a into two
exact full-mask arms for 0x00 and 0x80, the unbound bits of b are forced to
zero, and dispatching 0x40 hits the fatal catch-all. -/
theorem C7_counterexample :
    instruction_table [entHalfBound] =
      .ok [⟨0xFF, 0x00, ⟨"H", []⟩⟩, ⟨0xFF, 0x80, ⟨"H", []⟩⟩] ∧
    parsePattern entHalfBound.pattern =
      .ok ⟨0x3F, 0x00, [("a", (7, 1)), ("b", (6, 1))], 0, 8⟩ ∧
    0x40 &&& 0x3F = 0x00 ∧
    dispatch [⟨0xFF, 0x00, ⟨"H", []⟩⟩, ⟨0xFF, 0x80, ⟨"H", []⟩⟩] 0x40 =
      .error (panicMessage 0x40) :=
  ⟨rfl, rfl, rfl, rfl⟩

/-- Claim C7, amended: an entry that has pattern variables and whose where
clause binds none of them contributes a single masked match with the
pattern's original mask and value; every opcode agreeing with the pattern
value on all mask bits matches it, and flipping any bit at a position held
by an (unbound) variable letter never changes whether an opcode matches. -/
theorem C7_amended (st : CompileState) (e : InstructionEntry) (p : ParsedPattern)
    (call : HandlerCall)
    (hp : parsePattern e.pattern = .ok p)
    (hexp : hasExpandableVars p e.whereBindings = false)
    (hvars : ¬ p.vars.isEmpty)
    (hcall : generate_handler_call e.handler [] = .ok call) :
    processEntry st e = .ok ⟨st.arms ++
        [⟨make_literal p.mask p.bit_width, make_literal p.value p.bit_width, call⟩],
      st.seen ++ [(p.mask, p.value)]⟩ ∧
    (∀ O, (∀ b, p.mask.testBit b = true → O.testBit b = p.value.testBit b) →
      entryMatches ⟨make_literal p.mask p.bit_width,
        make_literal p.value p.bit_width, call⟩ O = true) ∧
    (∀ O i, ∀ hi : i < (trimChars e.pattern).length,
      ((trimChars e.pattern).get ⟨i, hi⟩).isLower = true →
      entryMatches ⟨make_literal p.mask p.bit_width, make_literal p.value p.bit_width, call⟩
          (O ^^^ (1 <<< (p.bit_width - 1 - i))) =
        entryMatches ⟨make_literal p.mask p.bit_width,
          make_literal p.value p.bit_width, call⟩ O) := by
  have hwidth := parsePattern_width hp
  have hsub := parsePattern_value_le_mask hp
  have hmlm : make_literal p.mask p.bit_width = p.mask % 2 ^ p.bit_width :=
    make_literal_eq hwidth.1 p.mask
  have hmlv : make_literal p.value p.bit_width = p.value % 2 ^ p.bit_width :=
    make_literal_eq hwidth.1 p.value
  refine ⟨processEntry_masked hp hexp (Or.inr hvars) hcall, ?_, ?_⟩
  · intro O hagree
    show ((O &&& make_literal p.mask p.bit_width) == make_literal p.value p.bit_width) = true
    rw [hmlm, hmlv]
    have : O &&& p.mask % 2 ^ p.bit_width = p.value % 2 ^ p.bit_width := by
      apply Nat.eq_of_testBit_eq
      intro b
      rw [Nat.testBit_and, Nat.testBit_mod_two_pow, Nat.testBit_mod_two_pow]
      by_cases hbw : b < p.bit_width
      · by_cases hmb : p.mask.testBit b = true
        · simp [hbw, hmb, hagree b hmb]
        · have hvb : p.value.testBit b = false := by
            rcases hv : p.value.testBit b with _ | _
            · rfl
            · exact absurd (hsub b hv) hmb
          simp [hmb, hvb]
      · simp [hbw]
    rw [this]
    simp
  · intro O i hi hlow
    have hmb : p.mask.testBit (p.bit_width - 1 - i) = false :=
      parsePattern_mask_lowercase hp i hi hlow
    have hMb : (make_literal p.mask p.bit_width).testBit (p.bit_width - 1 - i) = false := by
      rw [hmlm, Nat.testBit_mod_two_pow, hmb]
      simp
    show ((O ^^^ 1 <<< (p.bit_width - 1 - i)) &&& make_literal p.mask p.bit_width ==
        make_literal p.value p.bit_width) = _
    rw [land_xor_flip hMb]
    rfl

theorem C7_witness :
    processEntry ⟨[], []⟩ entUnbound =
      .ok ⟨[⟨0xC0, 0xC0, ⟨"ImplAdd", []⟩⟩], [(0xC0, 0xC0)]⟩ ∧
    entryMatches ⟨0xC0, 0xC0, ⟨"ImplAdd", []⟩⟩ 0xCA = true ∧
    entryMatches ⟨0xC0, 0xC0, ⟨"ImplAdd", []⟩⟩ (0xCA ^^^ (1 <<< 5)) =
      entryMatches ⟨0xC0, 0xC0, ⟨"ImplAdd", []⟩⟩ 0xCA := by
  have h := C7_amended ⟨[], []⟩ entUnbound ⟨0xC0, 0xC0, [("r", (4, 2))], 0x0F, 8⟩
    ⟨"ImplAdd", []⟩ rfl rfl (by decide) rfl
  refine ⟨h.1, ?_, ?_⟩
  · refine h.2.1 0xCA ?_
    intro b hb
    have hblt : b < 8 := by
      by_contra hge
      push_neg at hge
      rw [Nat.testBit_lt_two_pow
        (lt_of_lt_of_le (by decide) (Nat.pow_le_pow_right (by omega) hge))] at hb
      cases hb
    interval_cases b <;> revert hb <;> decide
  · exact h.2.2 0xCA 2 (by decide) (by decide)

theorem processVariants_dup_pair {w emask : Nat} {handler : HandlerSpec} {o : Nat}
    {b1 b2 : List (String × String)} {c1 : HandlerCall}
    (hc1 : generate_handler_call handler b1 = .ok c1) :
    processVariants w emask 0 handler [(o, b1), (o, b2)] ⟨[], []⟩ =
      .ok ⟨[⟨make_full_mask w, make_literal o w, c1⟩], [(make_full_mask w, o)]⟩ := by
  have hstep1 : processVariants w emask 0 handler [(o, b1), (o, b2)] ⟨[], []⟩ =
      match generate_handler_call handler b1 with
      | .error e => .error e
      | .ok call =>
          processVariants w emask 0 handler [(o, b2)]
            ⟨[⟨make_full_mask w, make_literal o w, call⟩], [(make_full_mask w, o)]⟩ := rfl
  rw [hstep1, hc1]
  show (if (([(make_full_mask w, o)] : List (Nat × Nat)).contains (make_full_mask w, o)) = true
      then processVariants w emask 0 handler []
        ⟨[⟨make_full_mask w, make_literal o w, c1⟩], [(make_full_mask w, o)]⟩
      else _) = _
  rw [if_pos (by simp)]
  rfl

theorem processEntry_expand_error {st : CompileState} {e : InstructionEntry} {p : ParsedPattern}
    {msg : String}
    (hp : parsePattern e.pattern = .ok p)
    (hexp : hasExpandableVars p e.whereBindings = true)
    (hvar : generate_opcode_variants p e.whereBindings = .error msg) :
    processEntry st e = .error msg := by
  unfold processEntry
  rw [hp]
  show (if hasExpandableVars p e.whereBindings then _ else _) = _
  rw [if_pos hexp, hvar]

/-- Claim C6: an exact candidate (no wildcard bits after binding) is rejected
during overlap resolution exactly when an earlier accepted (mask, value) pair
is identical to its full-mask/value key; the exact branch of the compiler
therefore equals the sequential first-declared-wins deduplication dedupExact.
Two fixed entries declaring the same opcode keep only the first, silently,
and dispatching that opcode invokes the first handler; repeated bit-literal
mappings inside one entry likewise keep only the first, with its tag. -/
theorem C6_exact_dedup :
    (∀ (w emask : Nat) (handler : HandlerSpec)
        (vs : List (Nat × List (String × String))) (st st' : CompileState),
      processVariants w emask 0 handler vs st = .ok st' →
      st'.arms = st.arms ++ dedupExact w handler vs st.seen) ∧
    (∀ (e1 e2 : InstructionEntry) (p1 p2 : ParsedPattern) (c1 : HandlerCall),
      parsePattern e1.pattern = .ok p1 → parsePattern e2.pattern = .ok p2 →
      p1.wildcard_bits = 0 → p1.vars = [] → p2.wildcard_bits = 0 → p2.vars = [] →
      p1.bit_width = p2.bit_width → p1.value = p2.value →
      generate_handler_call e1.handler [] = .ok c1 →
      instruction_table [e1, e2] =
        .ok [⟨make_full_mask p1.bit_width, make_literal p1.value p1.bit_width, c1⟩] ∧
      dispatch [⟨make_full_mask p1.bit_width, make_literal p1.value p1.bit_width, c1⟩]
          (make_literal p1.value p1.bit_width) =
        .ok (c1, make_literal p1.value p1.bit_width)) ∧
    (∀ (e : InstructionEntry) (p : ParsedPattern) (name : String) (pos n : Nat)
        (m1 m2 : BitMapping) (lit : Nat) (c1 : HandlerCall),
      parsePattern e.pattern = .ok p →
      e.whereBindings = [⟨name, [m1, m2]⟩] →
      p.vars.lookup name = some (pos, n) →
      p.wildcard_bits = 0 →
      fromStrRadix2 m1.bits = some lit → fromStrRadix2 m2.bits = some lit →
      generate_handler_call e.handler [(name, m1.variant)] = .ok c1 →
      instruction_table [e] =
        .ok [⟨make_full_mask p.bit_width,
              make_literal (p.value ||| ((lit <<< pos) % 2 ^ 64)) p.bit_width, c1⟩]) := by
  refine ⟨?_, ?_, ?_⟩
  · intro w emask handler vs st st' h
    exact processVariants_exact vs st st' h
  · intro e1 e2 p1 p2 c1 hp1 hp2 hwc1 hv1 hwc2 hv2 hbw hval hc1
    have hw1 := parsePattern_width hp1
    have hpe1 : processEntry ⟨[], []⟩ e1 =
        .ok ⟨[⟨make_full_mask p1.bit_width, make_literal p1.value p1.bit_width, c1⟩],
             [(make_full_mask p1.bit_width, p1.value)]⟩ :=
      processEntry_fixed_new hp1 hwc1 hv1 (by simp) hc1
    have hseen2 : (make_full_mask p2.bit_width, p2.value) ∈
        [(make_full_mask p1.bit_width, p1.value)] := by
      rw [← hbw, ← hval]
      exact List.mem_singleton_self _
    have hpe2 : processEntry
        ⟨[⟨make_full_mask p1.bit_width, make_literal p1.value p1.bit_width, c1⟩],
         [(make_full_mask p1.bit_width, p1.value)]⟩ e2 =
        .ok ⟨[⟨make_full_mask p1.bit_width, make_literal p1.value p1.bit_width, c1⟩],
             [(make_full_mask p1.bit_width, p1.value)]⟩ :=
      processEntry_fixed_dup hp2 hwc2 hv2 hseen2
    constructor
    · unfold instruction_table
      simp only [compileEntries, hpe1, hpe2]
    · have hmatch : entryMatches
          ⟨make_full_mask p1.bit_width, make_literal p1.value p1.bit_width, c1⟩
          (make_literal p1.value p1.bit_width) = true := by
        show ((make_literal p1.value p1.bit_width &&& make_full_mask p1.bit_width) ==
          make_literal p1.value p1.bit_width) = true
        rw [make_full_mask_eq hw1.1, make_literal_eq hw1.1,
          Nat.and_pow_two_sub_one_eq_mod, Nat.mod_mod_of_dvd _ dvd_rfl]
        simp
      show (if entryMatches _ _ then _ else _) = _
      rw [if_pos hmatch]
  · intro e p name pos n m1 m2 lit c1 hp hwb hlook hwc hm1 hm2 hc1
    have hvi : buildVarInfo p e.whereBindings = [⟨name, pos, n, [m1, m2]⟩] := by
      rw [hwb]
      simp [buildVarInfo, hlook]
    have hexp : hasExpandableVars p e.whereBindings = true := by
      rw [hwb]
      simp [hasExpandableVars, hlook]
    have hvar : generate_opcode_variants p e.whereBindings =
        .ok [(p.value ||| ((lit <<< pos) % 2 ^ 64), [(name, m1.variant)]),
             (p.value ||| ((lit <<< pos) % 2 ^ 64), [(name, m2.variant)])] := by
      unfold generate_opcode_variants
      rw [hvi]
      simp [genCombs, hm1, hm2]
    have hpe : processEntry ⟨[], []⟩ e =
        .ok ⟨[⟨make_full_mask p.bit_width,
               make_literal (p.value ||| ((lit <<< pos) % 2 ^ 64)) p.bit_width, c1⟩],
             [(make_full_mask p.bit_width, p.value ||| ((lit <<< pos) % 2 ^ 64))]⟩ := by
      rw [processEntry_expand hp hexp hvar, hwc]
      exact processVariants_dup_pair hc1
    unfold instruction_table
    simp only [compileEntries, hpe]

theorem C6_witness :
    instruction_table [entDup1, entDup2] = .ok [⟨0xFF, 0x3E, ⟨"First", []⟩⟩] ∧
    dispatch [⟨0xFF, 0x3E, ⟨"First", []⟩⟩] 0x3E = .ok (⟨"First", []⟩, 0x3E) ∧
    instruction_table [entRepeatLit] = .ok [⟨0xFF, 0x00, ⟨"H", []⟩⟩] := by
  have hB := C6_exact_dedup.2.1 entDup1 entDup2 ⟨0xFF, 0x3E, [], 0, 8⟩ ⟨0xFF, 0x3E, [], 0, 8⟩
    ⟨"First", []⟩ rfl rfl rfl rfl rfl rfl rfl rfl rfl
  have hC := C6_exact_dedup.2.2 entRepeatLit ⟨0xFE, 0x00, [("a", (0, 1))], 0, 8⟩
    "a" 0 1 ⟨"0", "TagA"⟩ ⟨"00", "TagB"⟩ 0 ⟨"H", []⟩ rfl rfl rfl rfl rfl rfl rfl
  exact ⟨hB.1, hB.2, hC⟩

/-- Claim C1, counterexample: the pattern a_a___11 reuses variable letter a
at the non-contiguous positions 7 and 5; the derived field (start 5, width 2)
makes the expanded decision mask 0x63 cover bit 6, which is a wildcard
position (an underscore), so flipping the wildcard bit 6 of an opcode changes
whether the generated guarded entry matches, contradicting the claim that
wildcard-position bits never influence matching. -/
theorem C1_counterexample :
    instruction_table [entNonContig] = .ok [⟨0x63, 0x63, ⟨"H", []⟩⟩] ∧
    parsePattern entNonContig.pattern = .ok ⟨0x03, 0x03, [("a", (5, 2))], 0x5C, 8⟩ ∧
    (0x5C : Nat).testBit 6 = true ∧
    entryMatches ⟨0x63, 0x63, ⟨"H", []⟩⟩ 0x63 = true ∧
    entryMatches ⟨0x63, 0x63, ⟨"H", []⟩⟩ (0x63 ^^^ (1 <<< 6)) = false :=
  ⟨rfl, rfl, by decide, rfl, rfl⟩

/-- The expandable branch: every guard arm emitted for an entry whose
expanded mask is disjoint from the wildcard bits carries the expanded mask,
matches exactly when opcode AND mask equals value, and is insensitive to
wildcard-position bit flips. -/
theorem processEntry_guard_expand_wildcard
    (st st' : CompileState) (e : InstructionEntry) (p : ParsedPattern)
    (hrun : processEntry st e = .ok st')
    (hp : parsePattern e.pattern = .ok p)
    (hexp : hasExpandableVars p e.whereBindings = true)
    (hwc : p.wildcard_bits ≠ 0)
    (hdisj : expandedMask p e.whereBindings &&& p.wildcard_bits = 0) :
    ∀ d ∈ st'.arms.drop st.arms.length,
      d.mask = make_literal (expandedMask p e.whereBindings) p.bit_width ∧
      (∀ O, entryMatches d O = true ↔ O &&& d.mask = d.value) ∧
      (∀ O b, p.wildcard_bits.testBit b = true →
        entryMatches d (O ^^^ (1 <<< b)) = entryMatches d O) := by
  cases hvar : generate_opcode_variants p e.whereBindings with
  | error msg =>
      rw [processEntry_expand_error hp hexp hvar] at hrun
      cases hrun
  | ok variants =>
      rw [processEntry_expand hp hexp hvar] at hrun
      obtain ⟨b0, hb0⟩ := exists_testBit_of_ne_zero hwc
      obtain ⟨stS, hscan, hpeq, hwlen⟩ := parsePattern_ok_elim hp
      have hwild : p.wildcard_bits = stS.wildcard := by rw [hpeq]
      have hb0lt : b0 < p.bit_width := by
        have hset : stS.wildcard.testBit b0 = true := by rw [← hwild]; exact hb0
        have horig := scanPattern_wildcard_origin (trimChars e.pattern) 0 _ _ hscan b0 hset
        rcases horig with h0 | ⟨j, hj, hb, _⟩
        · simp at h0
        · have hbw : p.bit_width = (trimChars e.pattern).length := by rw [hpeq]
          rw [hbw]
          omega
      have hne : expandedMask p e.whereBindings ≠ make_full_mask p.bit_width := by
        intro heq
        have hfull := make_full_mask_eq (parsePattern_width hp).1
        rw [heq, hfull] at hdisj
        rcases land_eq_zero_iff.mp hdisj b0 with hfb | hwb
        · rw [Nat.testBit_two_pow_sub_one] at hfb
          simp [hb0lt] at hfb
        · rw [hb0] at hwb
          cases hwb
      have harms := processVariants_guarded hwc hne variants st st' hrun
      intro d hd
      rw [harms, List.drop_left' (by rfl)] at hd
      obtain ⟨v, hv, rfl⟩ := List.mem_map.mp hd
      refine ⟨rfl, ?_, ?_⟩
      · intro O
        simp [entryMatches]
      · intro O b hbw2
        have hMb : (make_literal (expandedMask p e.whereBindings) p.bit_width).testBit b
            = false := by
          rw [make_literal_eq (parsePattern_width hp).1, Nat.testBit_mod_two_pow]
          have hemb : (expandedMask p e.whereBindings).testBit b = false := by
            rcases land_eq_zero_iff.mp hdisj b with h | h
            · exact h
            · rw [hbw2] at h
              cases h
          simp [hemb]
        show ((O ^^^ 1 <<< b) &&& make_literal (expandedMask p e.whereBindings) p.bit_width
            == make_literal v.1 p.bit_width) = _
        rw [land_xor_flip hMb]
        rfl

/-- The non-expandable guarded branch: a wildcard entry without expandable
bindings contributes one guard arm with the pattern mask and value; it
matches exactly when opcode AND mask equals value, and flipping a
wildcard-position bit never changes the match, since the scan keeps the mask
and the wildcard bits disjoint. -/
theorem processEntry_guard_masked_wildcard
    (st : CompileState) (e : InstructionEntry) (p : ParsedPattern) (call : HandlerCall)
    (hp : parsePattern e.pattern = .ok p)
    (hexp : hasExpandableVars p e.whereBindings = false)
    (hwc : p.wildcard_bits ≠ 0)
    (hcall : generate_handler_call e.handler [] = .ok call) :
    processEntry st e = .ok ⟨st.arms ++
        [⟨make_literal p.mask p.bit_width, make_literal p.value p.bit_width, call⟩],
      st.seen ++ [(p.mask, p.value)]⟩ ∧
    (∀ O, entryMatches ⟨make_literal p.mask p.bit_width,
          make_literal p.value p.bit_width, call⟩ O = true ↔
        O &&& make_literal p.mask p.bit_width = make_literal p.value p.bit_width) ∧
    (∀ O b, p.wildcard_bits.testBit b = true →
      entryMatches ⟨make_literal p.mask p.bit_width,
          make_literal p.value p.bit_width, call⟩ (O ^^^ (1 <<< b)) =
        entryMatches ⟨make_literal p.mask p.bit_width,
          make_literal p.value p.bit_width, call⟩ O) := by
  have hdisj := parsePattern_mask_wildcard_disjoint hp
  refine ⟨processEntry_masked hp hexp (Or.inl hwc) hcall, ?_, ?_⟩
  · intro O
    simp [entryMatches]
  · intro O b hbw2
    have hMb : (make_literal p.mask p.bit_width).testBit b = false := by
      rw [make_literal_eq (parsePattern_width hp).1, Nat.testBit_mod_two_pow]
      simp [hdisj b hbw2]
    show ((O ^^^ 1 <<< b) &&& make_literal p.mask p.bit_width
        == make_literal p.value p.bit_width) = _
    rw [land_xor_flip hMb]
    rfl

/-- Claim C1, amended: for every entry whose pattern still has wildcard bits
after binding: if it has expandable variable bindings and its expanded mask
is disjoint from the wildcard bits — which holds whenever every bound
variable letter occupies contiguous bit positions — then every decision
entry generated for it carries the expanded mask, matches an opcode O
exactly when O AND mask equals value, and flipping any wildcard-position bit
of O never changes whether it matches; if it has no expandable bindings (a
plain wildcard pattern, or all variables unbound), it contributes a single
guard arm with the pattern mask and value, matching O exactly when O AND
mask equals value, and flipping any wildcard-position bit of O never changes
whether it matches, the scan keeping mask and wildcard bits disjoint. -/
theorem C1_amended :
    (∀ (st st' : CompileState) (e : InstructionEntry) (p : ParsedPattern),
      processEntry st e = .ok st' →
      parsePattern e.pattern = .ok p →
      hasExpandableVars p e.whereBindings = true →
      p.wildcard_bits ≠ 0 →
      expandedMask p e.whereBindings &&& p.wildcard_bits = 0 →
      ∀ d ∈ st'.arms.drop st.arms.length,
        d.mask = make_literal (expandedMask p e.whereBindings) p.bit_width ∧
        (∀ O, entryMatches d O = true ↔ O &&& d.mask = d.value) ∧
        (∀ O b, p.wildcard_bits.testBit b = true →
          entryMatches d (O ^^^ (1 <<< b)) = entryMatches d O)) ∧
    (∀ (st : CompileState) (e : InstructionEntry) (p : ParsedPattern) (call : HandlerCall),
      parsePattern e.pattern = .ok p →
      hasExpandableVars p e.whereBindings = false →
      p.wildcard_bits ≠ 0 →
      generate_handler_call e.handler [] = .ok call →
      processEntry st e = .ok ⟨st.arms ++
          [⟨make_literal p.mask p.bit_width, make_literal p.value p.bit_width, call⟩],
        st.seen ++ [(p.mask, p.value)]⟩ ∧
      (∀ O, entryMatches ⟨make_literal p.mask p.bit_width,
            make_literal p.value p.bit_width, call⟩ O = true ↔
          O &&& make_literal p.mask p.bit_width = make_literal p.value p.bit_width) ∧
      (∀ O b, p.wildcard_bits.testBit b = true →
        entryMatches ⟨make_literal p.mask p.bit_width,
            make_literal p.value p.bit_width, call⟩ (O ^^^ (1 <<< b)) =
          entryMatches ⟨make_literal p.mask p.bit_width,
            make_literal p.value p.bit_width, call⟩ O)) :=
  ⟨fun st st' e p hrun hp hexp hwc hdisj =>
    processEntry_guard_expand_wildcard st st' e p hrun hp hexp hwc hdisj,
   fun st e p call hp hexp hwc hcall =>
    processEntry_guard_masked_wildcard st e p call hp hexp hwc hcall⟩

theorem or_land_eq_zero {a b X : Nat} (ha : a &&& X = 0) (hb : b &&& X = 0) :
    (a ||| b) &&& X = 0 := by
  rw [land_eq_zero_iff] at ha hb ⊢
  intro i
  rcases ha i with h | h
  · rcases hb i with h2 | h2
    · left
      rw [Nat.testBit_or, h, h2]
      rfl
    · exact Or.inr h2
  · exact Or.inr h

theorem land_two_pow_iff {x b : Nat} : x &&& 2 ^ b = 0 ↔ x.testBit b = false := by
  constructor
  · intro h
    have := congrArg (fun z => z.testBit b) h
    simp only [Nat.testBit_and, Nat.zero_testBit, Nat.testBit_two_pow_self,
      Bool.and_true] at this
    exact this
  · intro h
    rw [land_eq_zero_iff]
    intro i
    by_cases hib : i = b
    · subst hib
      exact Or.inl h
    · exact Or.inr (Nat.testBit_two_pow_of_ne (fun hh => hib hh.symm))

theorem shiftLeft_lt_two_pow {l n pos k : Nat} (hl : l < 2 ^ n) (hnk : pos + n ≤ k) :
    l <<< pos < 2 ^ k := by
  rw [Nat.shiftLeft_eq]
  calc l * 2 ^ pos < 2 ^ n * 2 ^ pos :=
        (Nat.mul_lt_mul_right (Nat.pos_pow_of_pos _ (by omega))).mpr hl
    _ = 2 ^ (n + pos) := by rw [Nat.pow_add]
    _ ≤ 2 ^ k := Nat.pow_le_pow_right (by omega) (by omega)

theorem mem_specBranch {name : String} {pos : Nat}
    {S : List (List ((String × String) × Nat))} :
    ∀ (maps : List BitMapping) (combo : List ((String × String) × Nat)),
      combo ∈ specBranch name pos S maps →
      ∃ m ∈ maps, ∃ c ∈ S,
        combo = ((name, m.variant), ((fromStrRadix2 m.bits).getD 0) <<< pos) :: c := by
  intro maps
  induction maps with
  | nil => intro combo h; cases h
  | cons m ms ih =>
    intro combo h
    rw [specBranch, List.mem_append] at h
    rcases h with h | h
    · obtain ⟨c, hc, rfl⟩ := List.mem_map.mp h
      exact ⟨m, List.mem_cons_self m ms, c, hc, rfl⟩
    · obtain ⟨m2, hm2, c, hc, rfl⟩ := ih combo h
      exact ⟨m2, List.mem_cons_of_mem _ hm2, c, hc, rfl⟩

theorem specCartesian_sum_land :
    ∀ (vi : List VarInfo),
      (∀ v ∈ vi, ∀ m ∈ v.mappings, (fromStrRadix2 m.bits).getD 0 < 2 ^ v.numBits) →
      vi.Pairwise (fun a b =>
        ((2 ^ a.numBits - 1) <<< a.pos) &&& ((2 ^ b.numBits - 1) <<< b.pos) = 0) →
      ∀ combo ∈ specCartesian vi, ∀ X : Nat,
        (∀ v ∈ vi, ((2 ^ v.numBits - 1) <<< v.pos) &&& X = 0) →
        ((combo.map (fun x => x.2)).sum) &&& X = 0 := by
  intro vi
  induction vi with
  | nil =>
    intro _ _ combo hcombo X _
    rw [show specCartesian [] = [[]] from rfl, List.mem_singleton] at hcombo
    subst hcombo
    simp
  | cons v rest ih =>
    intro hfit hpair combo hcombo X hX
    have hcombo2 : combo ∈ specBranch v.name v.pos (specCartesian rest) v.mappings := hcombo
    obtain ⟨m, hm, c, hc, rfl⟩ := mem_specBranch v.mappings combo hcombo2
    have hpc := List.pairwise_cons.mp hpair
    have hfit_rest : ∀ u ∈ rest, ∀ m2 ∈ u.mappings,
        (fromStrRadix2 m2.bits).getD 0 < 2 ^ u.numBits :=
      fun u hu => hfit u (List.mem_cons_of_mem _ hu)
    have hSumX : ((c.map (fun x => x.2)).sum) &&& X = 0 :=
      ih hfit_rest hpc.2 c hc X (fun u hu => hX u (List.mem_cons_of_mem _ hu))
    have hlm : (fromStrRadix2 m.bits).getD 0 < 2 ^ v.numBits :=
      hfit v (List.mem_cons_self v rest) m hm
    have hlX : (((fromStrRadix2 m.bits).getD 0) <<< v.pos) &&& X = 0 :=
      shiftLeft_land_eq_zero hlm (hX v (List.mem_cons_self v rest))
    have hSumRange : ((c.map (fun x => x.2)).sum) &&& ((2 ^ v.numBits - 1) <<< v.pos) = 0 :=
      ih hfit_rest hpc.2 c hc ((2 ^ v.numBits - 1) <<< v.pos) (fun u hu => by
        rw [Nat.and_comm]
        exact hpc.1 u hu)
    have hlSum : (((fromStrRadix2 m.bits).getD 0) <<< v.pos) &&& ((c.map (fun x => x.2)).sum)
        = 0 := by
      apply shiftLeft_land_eq_zero hlm
      rw [Nat.and_comm]
      exact hSumRange
    rw [List.map_cons, List.sum_cons, add_eq_or_of_land_eq_zero _ _ hlSum]
    exact or_land_eq_zero hlX hSumX

theorem specBranch_length {name : String} {pos : Nat}
    {S : List (List ((String × String) × Nat))} :
    ∀ maps : List BitMapping, (specBranch name pos S maps).length = maps.length * S.length := by
  intro maps
  induction maps with
  | nil => simp [specBranch]
  | cons m ms ih =>
    show ((S.map _) ++ specBranch name pos S ms).length = _
    rw [List.length_append, List.length_map, ih]
    simp [List.length_cons]
    ring

theorem specCartesian_length :
    ∀ vi : List VarInfo,
      (specCartesian vi).length = (vi.map (fun v => v.mappings.length)).prod := by
  intro vi
  induction vi with
  | nil => rfl
  | cons v rest ih =>
    show (specBranch v.name v.pos (specCartesian rest) v.mappings).length = _
    rw [specBranch_length, ih, List.map_cons, List.prod_cons]

theorem genCombs_branch_spec (name : String) (pos : Nat) (numBits : Nat)
    (rest : List VarInfo)
    (hrec : ∀ (cur : Nat) (binds : List (String × String)),
      genCombs rest cur binds = .ok ((specCartesian rest).map
        (fun combo => (cur ||| (combo.map (fun x => x.2)).sum,
          binds ++ combo.map (fun x => x.1)))))
    (hdisjsum : ∀ combo ∈ specCartesian rest,
      ((combo.map (fun x => x.2)).sum) &&& ((2 ^ numBits - 1) <<< pos) = 0)
    (hk : pos + numBits ≤ 64) :
    ∀ (maps : List BitMapping),
      (∀ m ∈ maps, (fromStrRadix2 m.bits).isSome = true ∧
        (fromStrRadix2 m.bits).getD 0 < 2 ^ numBits) →
      ∀ (cur : Nat) (binds : List (String × String)),
        (maps.foldr
          (fun m acc =>
            match fromStrRadix2 m.bits with
            | none => Except.error "Invalid binary string"
            | some bitsValue =>
                match genCombs rest (cur ||| ((bitsValue <<< pos) % 2 ^ 64))
                    (binds ++ [(name, m.variant)]) with
                | .error e => .error e
                | .ok r1 =>
                    match acc with
                    | .error e => .error e
                    | .ok r2 => .ok (r1 ++ r2))
          (.ok [])) =
        .ok ((specBranch name pos (specCartesian rest) maps).map
          (fun combo => (cur ||| (combo.map (fun x => x.2)).sum,
            binds ++ combo.map (fun x => x.1)))) := by
  intro maps
  induction maps with
  | nil => intro _ cur binds; rfl
  | cons m ms ihm =>
    intro hm cur binds
    rw [List.foldr_cons, ihm (fun x hx => hm x (List.mem_cons_of_mem _ hx)) cur binds]
    obtain ⟨l, hl⟩ := Option.isSome_iff_exists.mp (hm m (List.mem_cons_self m ms)).1
    have hlfit : l < 2 ^ numBits := by
      have h2 := (hm m (List.mem_cons_self m ms)).2
      rw [hl] at h2
      simpa using h2
    have hmod : (l <<< pos) % 2 ^ 64 = l <<< pos :=
      Nat.mod_eq_of_lt (shiftLeft_lt_two_pow hlfit hk)
    simp only [hl, hrec, hmod]
    show Except.ok _ = _
    have hbranch : specBranch name pos (specCartesian rest) (m :: ms) =
        (specCartesian rest).map
          (fun combo => ((name, m.variant), ((fromStrRadix2 m.bits).getD 0) <<< pos) :: combo)
          ++ specBranch name pos (specCartesian rest) ms := rfl
    rw [hbranch, List.map_append, List.map_map]
    congr 1
    congr 1
    apply List.map_congr_left
    intro combo hcombo
    have hgd : (fromStrRadix2 m.bits).getD 0 = l := by rw [hl]; rfl
    have hdis : (l <<< pos) &&& ((combo.map (fun x => x.2)).sum) = 0 := by
      apply shiftLeft_land_eq_zero hlfit
      rw [Nat.and_comm]
      exact hdisjsum combo hcombo
    show (cur ||| l <<< pos ||| (combo.map (fun x => x.2)).sum,
        (binds ++ [(name, m.variant)]) ++ combo.map (fun x => x.1)) = _
    simp only [Function.comp, hgd, List.map_cons, List.sum_cons, List.map_cons]
    refine Prod.ext ?_ ?_
    · show cur ||| l <<< pos ||| (combo.map (fun x => x.2)).sum =
        cur ||| (l <<< pos + (combo.map (fun x => x.2)).sum)
      rw [add_eq_or_of_land_eq_zero _ _ hdis, Nat.or_assoc]
    · show (binds ++ [(name, m.variant)]) ++ combo.map (fun x => x.1) =
        binds ++ ((name, m.variant) :: combo.map (fun x => x.1))
      rw [List.append_assoc]
      rfl

theorem genCombs_spec :
    ∀ (vi : List VarInfo),
      (∀ v ∈ vi, ∀ m ∈ v.mappings, (fromStrRadix2 m.bits).isSome = true ∧
        (fromStrRadix2 m.bits).getD 0 < 2 ^ v.numBits) →
      (∀ v ∈ vi, v.pos + v.numBits ≤ 64) →
      vi.Pairwise (fun a b =>
        ((2 ^ a.numBits - 1) <<< a.pos) &&& ((2 ^ b.numBits - 1) <<< b.pos) = 0) →
      ∀ (cur : Nat) (binds : List (String × String)),
        genCombs vi cur binds = .ok ((specCartesian vi).map
          (fun combo => (cur ||| (combo.map (fun x => x.2)).sum,
            binds ++ combo.map (fun x => x.1)))) := by
  intro vi
  induction vi with
  | nil =>
    intro _ _ _ cur binds
    simp [genCombs, specCartesian]
  | cons v rest ih =>
    intro hfit hw64 hpair cur binds
    have hpc := List.pairwise_cons.mp hpair
    have hrec := ih (fun u hu => hfit u (List.mem_cons_of_mem _ hu))
      (fun u hu => hw64 u (List.mem_cons_of_mem _ hu)) hpc.2
    have hfit2 : ∀ u ∈ rest, ∀ m ∈ u.mappings,
        (fromStrRadix2 m.bits).getD 0 < 2 ^ u.numBits :=
      fun u hu m hm => (hfit u (List.mem_cons_of_mem _ hu) m hm).2
    have hdisjsum : ∀ combo ∈ specCartesian rest,
        ((combo.map (fun x => x.2)).sum) &&& ((2 ^ v.numBits - 1) <<< v.pos) = 0 :=
      fun combo hc => specCartesian_sum_land rest hfit2 hpc.2 combo hc
        ((2 ^ v.numBits - 1) <<< v.pos)
        (fun u hu => by rw [Nat.and_comm]; exact hpc.1 u hu)
    have hfitv : ∀ m ∈ v.mappings, (fromStrRadix2 m.bits).isSome = true ∧
        (fromStrRadix2 m.bits).getD 0 < 2 ^ v.numBits :=
      fun m hm => hfit v (List.mem_cons_self v rest) m hm
    exact genCombs_branch_spec v.name v.pos v.numBits rest hrec hdisjsum
      (hw64 v (List.mem_cons_self v rest)) v.mappings hfitv cur binds

/-- Claim C3, counterexample: the pattern abab1111 puts variable letters a
and b at interleaved positions; the derived fields are a at (5, 2) and b at
(4, 2), whose ranges overlap at bit 5.  With a bound to 01 and b bound to 10
the code ORs the shifted literals into the value one after the other and
produces opcode 0x2F, while the formula of the claim, pattern value OR the
sum of the shifted literals, gives 0x4F; the claimed opcode formula is
therefore false on this entry. -/
theorem C3_counterexample :
    instruction_table [entInterleaved] = .ok [⟨0xFF, 0x2F, ⟨"H", []⟩⟩] ∧
    parsePattern entInterleaved.pattern =
      .ok ⟨0x0F, 0x0F, [("a", (5, 2)), ("b", (4, 2))], 0, 8⟩ ∧
    fromStrRadix2 "01" = some 1 ∧
    fromStrRadix2 "10" = some 2 ∧
    0x2F ≠ 0x0F ||| ((1 <<< 5) + (2 <<< 4)) :=
  ⟨rfl, rfl, rfl, rfl, by decide⟩

/-- Claim C3, amended: for an entry whose bound variables parse to literals
that fit their field widths, whose fields fit in the u64 opcode space, and
whose field ranges are pairwise disjoint (the data-model invariant, which
holds whenever every variable letter occupies contiguous positions),
expansion is exactly the Cartesian product of the bindings in declaration
order: one concrete entry per combination, the opcode of a combination being
the pattern value OR the sum of each chosen literal shifted to its variable
start bit, with the symbolic (variable, tag) list of that combination; the
number of entries is the product of the mapping counts, and any two
combinations agree on every bit outside the variable ranges. -/
theorem C3_amended (p : ParsedPattern) (bindings : List VariableBinding)
    (hvi : buildVarInfo p bindings ≠ [])
    (hfit : ∀ v ∈ buildVarInfo p bindings, ∀ m ∈ v.mappings,
      (fromStrRadix2 m.bits).isSome = true ∧ (fromStrRadix2 m.bits).getD 0 < 2 ^ v.numBits)
    (hw64 : ∀ v ∈ buildVarInfo p bindings, v.pos + v.numBits ≤ 64)
    (hpair : (buildVarInfo p bindings).Pairwise (fun a b =>
      ((2 ^ a.numBits - 1) <<< a.pos) &&& ((2 ^ b.numBits - 1) <<< b.pos) = 0)) :
    generate_opcode_variants p bindings =
      .ok ((specCartesian (buildVarInfo p bindings)).map
        (fun combo => (comboOpcode p.value combo, comboTags combo))) ∧
    (specCartesian (buildVarInfo p bindings)).length =
      ((buildVarInfo p bindings).map (fun v => v.mappings.length)).prod ∧
    (∀ c1 ∈ specCartesian (buildVarInfo p bindings),
      ∀ c2 ∈ specCartesian (buildVarInfo p bindings),
      ∀ b : Nat, (∀ v ∈ buildVarInfo p bindings,
          ((2 ^ v.numBits - 1) <<< v.pos).testBit b = false) →
        (comboOpcode p.value c1).testBit b = (comboOpcode p.value c2).testBit b) := by
  refine ⟨?_, specCartesian_length _, ?_⟩
  · unfold generate_opcode_variants
    rw [if_neg (by simp [List.isEmpty_iff, hvi])]
    rw [genCombs_spec (buildVarInfo p bindings) hfit hw64 hpair p.value []]
    congr 1
  · intro c1 hc1 c2 hc2 b hb
    have hfit2 : ∀ u ∈ buildVarInfo p bindings, ∀ m ∈ u.mappings,
        (fromStrRadix2 m.bits).getD 0 < 2 ^ u.numBits := fun u hu m hm => (hfit u hu m hm).2
    have hX : ∀ v ∈ buildVarInfo p bindings,
        ((2 ^ v.numBits - 1) <<< v.pos) &&& 2 ^ b = 0 :=
      fun v hv => land_two_pow_iff.mpr (hb v hv)
    have t1 : ((c1.map (fun x : (String × String) × Nat => x.2)).sum).testBit b = false :=
      land_two_pow_iff.mp (specCartesian_sum_land _ hfit2 hpair c1 hc1 (2 ^ b) hX)
    have t2 : ((c2.map (fun x : (String × String) × Nat => x.2)).sum).testBit b = false :=
      land_two_pow_iff.mp (specCartesian_sum_land _ hfit2 hpair c2 hc2 (2 ^ b) hX)
    show (p.value ||| _).testBit b = (p.value ||| _).testBit b
    rw [Nat.testBit_or, Nat.testBit_or, t1, t2]

theorem C3_witness :
    generate_opcode_variants ⟨0x0F, 0x03, [("a", (6, 2)), ("b", (4, 2))], 0, 8⟩
        [⟨"a", [⟨"00", "A0"⟩, ⟨"01", "A1"⟩]⟩, ⟨"b", [⟨"10", "B2"⟩]⟩] =
      .ok ((specCartesian (buildVarInfo ⟨0x0F, 0x03, [("a", (6, 2)), ("b", (4, 2))], 0, 8⟩
          [⟨"a", [⟨"00", "A0"⟩, ⟨"01", "A1"⟩]⟩, ⟨"b", [⟨"10", "B2"⟩]⟩])).map
        (fun combo => (comboOpcode 0x03 combo, comboTags combo))) ∧
    (specCartesian (buildVarInfo ⟨0x0F, 0x03, [("a", (6, 2)), ("b", (4, 2))], 0, 8⟩
        [⟨"a", [⟨"00", "A0"⟩, ⟨"01", "A1"⟩]⟩, ⟨"b", [⟨"10", "B2"⟩]⟩])).length = 2 := by
  have h := C3_amended ⟨0x0F, 0x03, [("a", (6, 2)), ("b", (4, 2))], 0, 8⟩
    [⟨"a", [⟨"00", "A0"⟩, ⟨"01", "A1"⟩]⟩, ⟨"b", [⟨"10", "B2"⟩]⟩]
    (by decide) (by decide) (by decide) (by decide)
  exact ⟨h.1, h.2.1.trans (by decide)⟩

theorem C1_witness :
    processEntry ⟨[], []⟩ entGuardBound =
      .ok ⟨[⟨0xF0, 0x80, ⟨"Mov", [.enumVariant "Reg" "R0"]⟩⟩,
            ⟨0xF0, 0x90, ⟨"Mov", [.enumVariant "Reg" "R1"]⟩⟩],
           [(0xF0, 0x80), (0xF0, 0x90)]⟩ ∧
    entryMatches ⟨0xF0, 0x80, ⟨"Mov", [.enumVariant "Reg" "R0"]⟩⟩ (0x8A ^^^ (1 <<< 3)) =
      entryMatches ⟨0xF0, 0x80, ⟨"Mov", [.enumVariant "Reg" "R0"]⟩⟩ 0x8A ∧
    processEntry ⟨[], []⟩ entGuard0 =
      .ok ⟨[⟨0xF0, 0x00, ⟨"HandlerB", []⟩⟩], [(0xF0, 0x00)]⟩ ∧
    entryMatches ⟨0xF0, 0x00, ⟨"HandlerB", []⟩⟩ (0x03 ^^^ (1 <<< 2)) =
      entryMatches ⟨0xF0, 0x00, ⟨"HandlerB", []⟩⟩ 0x03 := by
  have h1 := C1_amended.1 ⟨[], []⟩
    ⟨[⟨0xF0, 0x80, ⟨"Mov", [.enumVariant "Reg" "R0"]⟩⟩,
      ⟨0xF0, 0x90, ⟨"Mov", [.enumVariant "Reg" "R1"]⟩⟩],
     [(0xF0, 0x80), (0xF0, 0x90)]⟩ entGuardBound
    ⟨0xC0, 0x80, [("c", (4, 2))], 0x0F, 8⟩ rfl rfl rfl (by decide) (by decide)
  have h2 := C1_amended.2 ⟨[], []⟩ entGuard0 ⟨0xF0, 0x00, [], 0x0F, 8⟩ ⟨"HandlerB", []⟩
    rfl rfl (by decide) rfl
  refine ⟨rfl, ?_, h2.1, ?_⟩
  · have hd := h1 ⟨0xF0, 0x80, ⟨"Mov", [.enumVariant "Reg" "R0"]⟩⟩ (by decide)
    exact hd.2.2 0x8A 3 (by decide)
  · exact h2.2.2 0x03 2 (by decide)

end Archibald
